import Mathlib

/-!
Verification of the yeli-os on-disk filesystem core (`src/fs`).

This file shallowly embeds the data model and the operations of the
filesystem crate and proves the frozen claims about them.

Modelling conventions:

* A disk block is modelled as a total function `Nat → Nat`.  Data blocks,
  bitmap blocks and directory payloads index *bytes* (values < 256 in any
  real state); an indirect index block (`IndexBlock` in the source)
  indexes 64-bit *slots*.  The byte-serialization of u64 slots is
  abstracted away: no execution modelled here ever accesses one block
  under both views, except zero-filling, under which the views agree.
* The inode region is modelled as a total map `inodes : Nat → DInode`
  (the source stores the packed records in the inode blocks and addresses
  them via `SuperBlock::find_inode`; the map abstracts that addressing,
  which is itself embedded separately as `find_inode` for the inode-cache
  claim).
* `Rust` loops are embedded as structural recursions; the two
  byte-copying loops of `DInode::read_data` / `DInode::write_data` take a
  fuel argument that the wrappers instantiate with an amount proved
  sufficient (each iteration advances `start` by at least one byte in
  every reachable state).
* Panics (failed asserts, out-of-bounds copies, `unimplemented!`) are
  modelled by dedicated `panicked` result constructors where a claim
  observes them, and by dead default branches where the call sites are
  proved in range.
-/

/-! ## Constants (`block_dev.rs`) -/

/-- The size of one block, in bytes (`BLOCK_SIZE`). -/
def BLOCK_SIZE : Nat := 4096

/-- Direct blocks per inode (`N_DIRECT`). -/
def N_DIRECT : Nat := 28

/-- Indirect block ids per index block (`N_INDIRECT = BLOCK_SIZE / size_of::<BlockId>()`). -/
def N_INDIRECT : Nat := BLOCK_SIZE / 8

/-- The maximum data blocks of one inode (`MAX_BLOCKS_PER_INODE`). -/
def MAX_BLOCKS_PER_INODE : Nat := N_DIRECT + N_INDIRECT

/-- The maximum inode capacity in bytes (`CAPACITY_PER_INODE`). -/
def CAPACITY_PER_INODE : Nat := MAX_BLOCKS_PER_INODE * BLOCK_SIZE

/-- The size of a directory name (`DIR_NAME_SIZE`). -/
def DIR_NAME_SIZE : Nat := 24

/-- The size of a directory entry in bytes (`DIR_ENTRY_SIZE = size_of::<DirEntry>()`,
8 bytes of inode number plus 24 name bytes). -/
def DIR_ENTRY_SIZE : Nat := 32

/-- The size of an on-disk inode record (`DINODE_SIZE = size_of::<DInode>()`). -/
def DINODE_SIZE : Nat := 128

/-- Inodes per block (`INODES_PER_BLOCK = BLOCK_SIZE / DINODE_SIZE`). -/
def INODES_PER_BLOCK : Nat := BLOCK_SIZE / DINODE_SIZE

/-- A disk block: bytes (or, for an index block, u64 slots) by offset. -/
def Blk : Type := Nat → Nat

/-- A whole disk: a block for every block id. -/
def Disk : Type := Nat → Blk

/-- Pointwise update of one block of a disk. -/
def updDisk (disk : Disk) (bid : Nat) (blk : Blk) : Disk :=
  fun b => if b = bid then blk else disk b

/-! ## On-disk inode records (`block_dev.rs`, `DInode`) -/

/-- File type of an inode (`InodeType`). -/
inductive InodeType where
  | Invalid
  | File
  | Directory
deriving DecidableEq

/-- On-disk inode record (`DInode`).  `addresses` models the
`[BlockId; N_DIRECT]` array; only indices below `N_DIRECT` are ever
accessed. -/
structure DInode where
  type_ : InodeType
  indirect : Nat
  links_num : Nat
  size : Nat
  addresses : Nat → Nat

/-- Re-initialization of an inode record (`DInode::initialize`). -/
def dinodeInit (t : InodeType) : DInode :=
  { type_ := t, indirect := 0, links_num := 0, size := 0, addresses := fun _ => 0 }

/-- Block id of the given inner index of an inode (`DInode::get_bid`).
Direct indices read the `addresses` array; indirect indices read slot
`idx - N_DIRECT` of the block at id `indirect`.  The source panics for
`idx ≥ MAX_BLOCKS_PER_INODE`; every call below is proved in range, so the
dead branch returns 0. -/
def getBid (d : DInode) (disk : Disk) (idx : Nat) : Nat :=
  if idx < N_DIRECT then d.addresses idx
  else if idx < MAX_BLOCKS_PER_INODE then disk d.indirect (idx - N_DIRECT)
  else 0

/-- Map an inner index to a block id (`DInode::set_bid`).  Writing an
indirect slot updates slot `idx - N_DIRECT` of the block at id
`indirect`.  The source panics for `idx ≥ MAX_BLOCKS_PER_INODE`; every
call below is proved in range, so the dead branch is a no-op. -/
def setBid (d : DInode) (disk : Disk) (idx bid : Nat) : DInode × Disk :=
  if idx < N_DIRECT then
    ({ d with addresses := fun j => if j = idx then bid else d.addresses j }, disk)
  else if idx < MAX_BLOCKS_PER_INODE then
    (d, updDisk disk d.indirect (fun k => if k = idx - N_DIRECT then bid else disk d.indirect k))
  else (d, disk)

/-- Byte `p` of the file stored in inode `d`: byte `p % BLOCK_SIZE` of the
data block mapped at inner index `p / BLOCK_SIZE`.  Specification
shorthand used to state properties of `read_data` / `write_data`. -/
def dataByte (d : DInode) (disk : Disk) (p : Nat) : Nat :=
  disk (getBid d disk (p / BLOCK_SIZE)) (p % BLOCK_SIZE)

/-- The copying loop of `DInode::read_data`.  `endPos` is the exclusive
end address, `start` the current address, `startBlock` the current inner
block index, `completed` the number of bytes already copied into `buf`.
Each iteration copies `incr` bytes out of the current data block.  The
fuel argument only bounds the iteration count; `read_data` passes enough
fuel for every reachable state. -/
def readLoop (d : DInode) (disk : Disk) (endPos : Nat) :
    Nat → Nat → Nat → Nat → (Nat → Nat) → Nat × (Nat → Nat)
  | 0, _, _, completed, buf => (completed, buf)
  | fuel + 1, start, startBlock, completed, buf =>
    if start < endPos then
      let incr := min endPos ((startBlock + 1) * BLOCK_SIZE) - start
      let src := disk (getBid d disk startBlock)
      let buf' := fun j =>
        if completed ≤ j ∧ j < completed + incr then
          src (start % BLOCK_SIZE + (j - completed))
        else buf j
      readLoop d disk endPos fuel (start + incr) (startBlock + 1) (completed + incr) buf'
    else (completed, buf)

/-- Reads data from an inode into a buffer (`DInode::read_data`).
`bufLen` is the buffer length; bytes `0 ≤ j < result.1` of the result
buffer are filled.  Returns the number of bytes read. -/
def read_data (d : DInode) (disk : Disk) (offset bufLen : Nat) (buf : Nat → Nat) :
    Nat × (Nat → Nat) :=
  let endPos := offset + min bufLen (d.size - offset)
  readLoop d disk endPos (endPos - offset + 1) offset (offset / BLOCK_SIZE) 0 buf

/-- The copying loop of `DInode::write_data`; mirror image of `readLoop`,
writing `incr` bytes of `buf` into the current data block of the evolving
disk. -/
def writeLoop (d : DInode) (buf : Nat → Nat) (endPos : Nat) :
    Nat → Nat → Nat → Nat → Disk → Nat × Disk
  | 0, _, _, completed, disk => (completed, disk)
  | fuel + 1, start, startBlock, completed, disk =>
    if start < endPos then
      let incr := min endPos ((startBlock + 1) * BLOCK_SIZE) - start
      let bid := getBid d disk startBlock
      let blk' := fun k =>
        if start % BLOCK_SIZE ≤ k ∧ k < start % BLOCK_SIZE + incr then
          buf (completed + (k - start % BLOCK_SIZE))
        else disk bid k
      writeLoop d buf endPos fuel (start + incr) (startBlock + 1) (completed + incr)
        (updDisk disk bid blk')
    else (completed, disk)

/-- Writes a buffer into an inode's data blocks (`DInode::write_data`).
Returns the number of bytes written and the updated disk. -/
def write_data (d : DInode) (disk : Disk) (offset bufLen : Nat) (buf : Nat → Nat) :
    Nat × Disk :=
  let endPos := offset + min bufLen (d.size - offset)
  writeLoop d buf endPos (endPos - offset + 1) offset (offset / BLOCK_SIZE) 0 disk

/-! ## Bitmap blocks (`block_dev.rs`, `BitmapBlock`) -/

/-- Lowest clear bit of a byte, scanning bit offsets `o, o+1, ...` with
`k` offsets left to try (the source scans `0..8`). -/
def byteFirstClear : Nat → Nat → Nat → Option Nat
  | _, 0, _ => none
  | byte, k + 1, o => if byte.testBit o then byteFirstClear byte k (o + 1) else some o

/-- Byte-at-a-time scan of a bitmap block (`BitmapBlock::allocate`'s
loop): skip bytes equal to `0xff`, then find the lowest clear bit of the
first other byte.  `i` is the current byte index, `n` the number of bytes
left to scan. -/
def bmScan (blk : Blk) : Nat → Nat → Option Nat
  | 0, _ => none
  | n + 1, i =>
    if blk i = 255 then bmScan blk n (i + 1)
    else
      match byteFirstClear (blk i) 8 0 with
      | some off => some (i * 8 + off)
      | none => bmScan blk n (i + 1)

/-- Allocate the lowest clear bit of a bitmap block
(`BitmapBlock::allocate`): returns the bit index and sets that bit. -/
def bitmapAllocate (blk : Blk) : Option Nat × Blk :=
  match bmScan blk BLOCK_SIZE 0 with
  | some k => (some k, fun i => if i = k / 8 then blk (k / 8) ||| (1 <<< (k % 8)) else blk i)
  | none => (none, blk)

/-- Bit `k` of a bitmap block. -/
def bitOf (blk : Blk) (k : Nat) : Bool :=
  (blk (k / 8)).testBit (k % 8)

/-! ## Superblock and layout (`block_dev.rs` `SuperBlock`, `lib.rs` `FileSystem::create`) -/

/-- Superblock fields (`SuperBlock`; the magic is checked at `open` and
not re-modelled). -/
structure SuperBlk where
  blocks : Nat
  inode_bmap_start : Nat
  inode_start : Nat
  inode_blocks : Nat
  data_bmap_start : Nat
  data_start : Nat
  data_blocks : Nat
deriving DecidableEq

/-- Location of the super block (`SUPER_BLOCK_LOC`). -/
def SUPER_BLOCK_LOC : Nat := 1

/-- The layout computation of `FileSystem::create`: given total blocks
and inode blocks, compute the superblock that `create` writes.  Mirrors
the sequence of `rest_blocks` updates in the source (1 super block plus 1
logging block are subtracted, `size_of::<BitmapBlock>()` is
`BLOCK_SIZE`).  The source asserts `rest_blocks > inode_area` after the
first subtraction; theorems below carry that as a hypothesis. -/
def mkLayout (total_blocks inode_blocks : Nat) : SuperBlk :=
  let super_blocks := 1
  let logging_blocks := 1
  let rest1 := total_blocks - (super_blocks + logging_blocks)
  let inode_bmap_blocks := inode_blocks / BLOCK_SIZE + 1
  let inode_area := inode_bmap_blocks + inode_blocks
  let rest2 := rest1 - inode_area
  let data_bmap_blocks := rest2 / BLOCK_SIZE / 8 + 1
  let data_blocks_num := rest2 - data_bmap_blocks
  let inode_bmap_start := SUPER_BLOCK_LOC + super_blocks
  let inode_start := inode_bmap_start + inode_bmap_blocks
  let data_bmap_start := inode_start + inode_blocks
  let data_start := data_bmap_start + data_bmap_blocks
  { blocks := total_blocks
    inode_bmap_start := inode_bmap_start
    inode_start := inode_start
    inode_blocks := inode_blocks
    data_bmap_start := data_bmap_start
    data_start := data_start
    data_blocks := data_blocks_num }

/-- Number of data-bitmap blocks of the layout (`data_bmap_blocks` in
`FileSystem::create`), recovered from the superblock. -/
def layoutDataBmapBlocks (sb : SuperBlk) : Nat := sb.data_start - sb.data_bmap_start

/-- Modelled from the spec: the claim's data-area formula
`T − (boot + super + log + inode-bitmap blocks + inode blocks)`, written
from the claim's words for comparison with `mkLayout`. -/
def claimDataArea (total_blocks inode_blocks : Nat) : Nat :=
  total_blocks - (1 + 1 + 1 + (inode_blocks / BLOCK_SIZE + 1) + inode_blocks)

/-- Modelled from the spec: the claim's data-bitmap-block count
`floor(data-area / (1 + 8·block-size)) + 1`. -/
def claimDataBmapBlocks (total_blocks inode_blocks : Nat) : Nat :=
  claimDataArea total_blocks inode_blocks / (1 + 8 * BLOCK_SIZE) + 1

/-- Modelled from the spec: the claim's data-block count
`data-area − data-bitmap blocks`. -/
def claimDataBlocks (total_blocks inode_blocks : Nat) : Nat :=
  claimDataArea total_blocks inode_blocks - claimDataBmapBlocks total_blocks inode_blocks

/-! ## Filesystem state (`lib.rs`, `FileSystem`) -/

/-- Filesystem state: the immutable superblock copy, the disk contents
(as observed through the write-back block cache), and the inode records
(as observed through `update_dinode`, which keeps the in-memory snapshot
and the on-disk record coherent). -/
structure FS where
  sb : SuperBlk
  disk : Disk
  inodes : Nat → DInode

/-- Number of valid inode numbers (`FileSystem::max_inode_num`). -/
def maxInodeNum (sb : SuperBlk) : Nat := sb.inode_blocks * INODES_PER_BLOCK

/-- The bitmap scan of `FileSystem::allocate_bmap` over the blocks
`[start, endB)`, embedded with the remaining block count `n` and current
block id `i`.  Each visited block goes through `BitmapBlock::allocate`
under the cache's write callback (re-written even when unchanged). -/
def allocateBmapLoop (start : Nat) : Nat → Nat → FS → Option Nat × FS
  | 0, _, fs => (none, fs)
  | n + 1, i, fs =>
    let res := bitmapAllocate (fs.disk i)
    let fs' : FS := { fs with disk := updDisk fs.disk i res.2 }
    match res.1 with
    | some off => (some ((i - start) * 8 * BLOCK_SIZE + off), fs')
    | none => allocateBmapLoop start n (i + 1) fs'

/-- Allocate a bit in the bitmap region `[start, endB)`
(`FileSystem::allocate_bmap`); returns
`block_offset * 8 * BLOCK_SIZE + bit_offset`. -/
def allocate_bmap (fs : FS) (start endB : Nat) : Option Nat × FS :=
  allocateBmapLoop start (endB - start) start fs

/-- Allocate a free data block (`FileSystem::allocate_data_block`):
allocate a data-bitmap bit, range-check the slot against `data_blocks`,
and map it to a block id by adding `data_start`.  An out-of-range slot is
allocation failure (the bit stays set). -/
def allocate_data_block (fs : FS) : Option Nat × FS :=
  match allocate_bmap fs fs.sb.data_bmap_start fs.sb.data_start with
  | (some slot, fs1) =>
    if slot ≥ fs.sb.data_blocks then (none, fs1) else (some (fs.sb.data_start + slot), fs1)
  | (none, fs1) => (none, fs1)

/-- Allocate a new empty inode (`FileSystem::allocate_inode`): allocate
an inode-bitmap bit, range-check it against `max_inode_num` (an
out-of-range bit stays set and allocation fails), then re-initialize the
inode record to `(type, 0, 0, 0, [0; N_DIRECT])`. -/
def allocate_inode (fs : FS) (t : InodeType) : Option Nat × FS :=
  match allocate_bmap fs fs.sb.inode_bmap_start fs.sb.inode_start with
  | (some inum, fs1) =>
    if inum ≥ maxInodeNum fs.sb then (none, fs1)
    else
      (some inum,
        { fs1 with inodes := fun j => if j = inum then dinodeInit t else fs1.inodes j })
  | (none, fs1) => (none, fs1)

/-- Zero a block and sync it (`clear_block` in `lib.rs`). -/
def clear_block (fs : FS) (bid : Nat) : FS :=
  { fs with disk := updDisk fs.disk bid (fun _ => 0) }

/-- Mutate the record of inode `i` in place (`FileSystem::update_dinode`
with a pure callback). -/
def updateDInode (fs : FS) (i : Nat) (f : DInode → DInode) : FS :=
  { fs with inodes := fun j => if j = i then f (fs.inodes i) else fs.inodes j }

/-- Mutate the record of inode `i` with `DInode::set_bid` (which may also
write the indirect index block) under `FileSystem::update_dinode`. -/
def updateDInodeSetBid (fs : FS) (i idx bid : Nat) : FS :=
  let r := setBid (fs.inodes i) fs.disk idx bid
  { fs with
    disk := r.2
    inodes := fun j => if j = i then r.1 else fs.inodes j }

/-- Set the size field of inode `i` (`FileSystem::set_inode_size`). -/
def setInodeSize (fs : FS) (i size : Nat) : FS :=
  updateDInode fs i (fun d => { d with size := size })

/-- Allocation errors (`FileSystemAllocationError`).  Names carry the
directory-entry name as its byte list. -/
inductive AllocErr where
  | Exhausted (size : Nat)
  | InodeExhausted
  | AlreadyExist (name : List Nat) (type_ : InodeType)
  | TooLarge (size : Nat)
deriving DecidableEq

/-- Result of `resize_inode`: the final state on success or error, or the
state at a panic (`unimplemented!()` for shrinking). -/
inductive ResizeRes where
  | ok (fs : FS)
  | err (fs : FS) (e : AllocErr)
  | panicked (fs : FS)

/-- Whether a resize result is `Ok`. -/
def ResizeRes.isOkR : ResizeRes → Bool
  | .ok _ => true
  | _ => false

/-- The state carried by a resize result. -/
def ResizeRes.stateOf : ResizeRes → FS
  | .ok fs => fs
  | .err fs _ => fs
  | .panicked fs => fs

/-- The block-allocating loop of `FileSystem::resize_inode`
(`for i in 0..needed_blocks`): allocate a data block, zero it, and map it
at the next inner index via `set_bid` under `update_dinode`. -/
def resizeLoop (i newSize : Nat) : Nat → Nat → FS → ResizeRes
  | _, 0, fs => .ok fs
  | baseIdx, count + 1, fs =>
    match allocate_data_block fs with
    | (none, fs1) => .err fs1 (.Exhausted newSize)
    | (some bid, fs1) =>
      let fs2 := clear_block fs1 bid
      let fs3 := updateDInodeSetBid fs2 i baseIdx bid
      resizeLoop i newSize (baseIdx + 1) count fs3

/-- Resize inode `i` to `new_size` (`FileSystem::resize_inode`).
Growth beyond the tail block's slack allocates
`ceil(increment / BLOCK_SIZE)` fresh data blocks; shrinking is
`unimplemented!()` (a panic). -/
def resize_inode (fs : FS) (i newSize : Nat) : ResizeRes :=
  if newSize > CAPACITY_PER_INODE then .err fs (.TooLarge newSize)
  else
    let oldSize := (fs.inodes i).size
    if newSize > oldSize then
      let inBlockOffset := oldSize % BLOCK_SIZE
      let increment := newSize - oldSize
      if inBlockOffset ≠ 0 ∧ ¬ (increment > BLOCK_SIZE - inBlockOffset) then
        .ok (setInodeSize fs i newSize)
      else
        let increment' :=
          if inBlockOffset ≠ 0 then increment - (BLOCK_SIZE - inBlockOffset) else increment
        let baseIdx := (oldSize + BLOCK_SIZE - 1) / BLOCK_SIZE
        let neededBlocks := (increment' + BLOCK_SIZE - 1) / BLOCK_SIZE
        match resizeLoop i newSize baseIdx neededBlocks fs with
        | .ok fs' => .ok (setInodeSize fs' i newSize)
        | r => r
    else if newSize < oldSize then .panicked fs
    else .ok fs

/-! ## Directory entries (`block_dev.rs`, `DirEntry`) -/

/-- Directory entry (`DirEntry`): inode number plus the fixed 24-byte
NUL-padded name array. -/
structure DirEnt where
  inode_num : Nat
  name24 : List Nat
deriving DecidableEq

/-- Build a directory entry from a name (`DirEntry::new`).  The source
copies `name.len()` bytes into the 24-byte zeroed array with
`bytes[..name.len()].copy_from_slice(...)`, which panics (out-of-bounds
range) when the name is longer than 24 bytes; `none` models that
panic. -/
def dirEntNew (name : List Nat) (inum : Nat) : Option DirEnt :=
  if name.length ≤ DIR_NAME_SIZE then
    some { inode_num := inum, name24 := name ++ List.replicate (DIR_NAME_SIZE - name.length) 0 }
  else none

/-- Name accessor (`DirEntry::name`): the bytes before the first NUL, or
all 24 bytes when no NUL occurs.  Taking the longest NUL-free prefix is
exactly that. -/
def dirEntName (name24 : List Nat) : List Nat :=
  name24.takeWhile (fun b => b ≠ 0)

/-- Serialized form of a directory entry as seen by
`write_inode`/`read_inode` (the source casts the packed struct to raw
bytes): little-endian u64 inode number in bytes `0..8`, the name array in
bytes `8..32`. -/
def entrySerialize (e : DirEnt) : Nat → Nat :=
  fun j => if j < 8 then e.inode_num / 256 ^ j % 256 else e.name24.getD (j - 8) 0

/-- Little-endian u64 read of the first 8 bytes of a serialized
directory entry (the `inode_num` field of the cast-back struct). -/
def decodeU64 (bytes : Nat → Nat) : Nat :=
  List.foldl (fun acc j => acc * 256 + bytes j) 0 (List.range 8).reverse

/-- The name array of a serialized directory entry (bytes `8..32`). -/
def entryName24 (bytes : Nat → Nat) : List Nat :=
  (List.range DIR_NAME_SIZE).map (fun j => bytes (8 + j))

/-! ## Directory operations (`lib.rs`) -/

/-- The scan loop of `FileSystem::look_up`: for each entry index `i`
below `size / DIR_ENTRY_SIZE`, read the 32 entry bytes through
`read_inode` and compare the NUL-trimmed name with the target; on a
match, return the entry's inode number (the source returns the handle
fetched from the inode cache for that number).  `n` is the number of
entries left to scan. -/
def lookUpLoop (d : DInode) (disk : Disk) (name : List Nat) : Nat → Nat → Option Nat
  | 0, _ => none
  | n + 1, i =>
    let bytes := (read_data d disk (DIR_ENTRY_SIZE * i) DIR_ENTRY_SIZE (fun _ => 0)).2
    if dirEntName (entryName24 bytes) = name then some (decodeU64 bytes)
    else lookUpLoop d disk name n (i + 1)

/-- Look a name up in a directory inode (`FileSystem::look_up`).  The
source asserts the inode is a directory; callers below check or assume
it. -/
def look_up (fs : FS) (d : DInode) (name : List Nat) : Option Nat :=
  lookUpLoop d fs.disk name (d.size / DIR_ENTRY_SIZE) 0

/-- Result of `create_inode`: success with the new inode's number, an
allocation error, or a panic (failed assert or the out-of-bounds name
copy of `DirEntry::new`), each carrying the state at that point. -/
inductive CreateRes where
  | ok (fs : FS) (inum : Nat)
  | err (fs : FS) (e : AllocErr)
  | panicked (fs : FS)

/-- Whether a create result is `Ok`. -/
def CreateRes.isOkC : CreateRes → Bool
  | .ok _ _ => true
  | _ => false

/-- The state carried by a create result. -/
def CreateRes.stateOf : CreateRes → FS
  | .ok fs _ => fs
  | .err fs _ => fs
  | .panicked fs => fs

/-- Create a new empty inode under a directory
(`FileSystem::create_inode`): assert the parent is a directory; fail with
`AlreadyExist` when `look_up` finds the name; allocate an inode
(`InodeExhausted` on failure); grow the directory by one entry size;
append the serialized entry at the old end; increment the new inode's
link count. -/
def create_inode (fs : FS) (dirI : Nat) (name : List Nat) (t : InodeType) : CreateRes :=
  if (fs.inodes dirI).type_ ≠ InodeType.Directory then .panicked fs
  else
    match look_up fs (fs.inodes dirI) name with
    | some _ => .err fs (.AlreadyExist name t)
    | none =>
      match allocate_inode fs t with
      | (none, fs1) => .err fs1 .InodeExhausted
      | (some ninum, fs1) =>
        let baseOffset := (fs1.inodes dirI).size
        match resize_inode fs1 dirI (baseOffset + DIR_ENTRY_SIZE) with
        | .err fs2 e => .err fs2 e
        | .panicked fs2 => .panicked fs2
        | .ok fs2 =>
          if (fs2.inodes dirI).size ≠ baseOffset + DIR_ENTRY_SIZE then .panicked fs2
          else
            match dirEntNew name ninum with
            | none => .panicked fs2
            | some e =>
              let w := write_data (fs2.inodes dirI) fs2.disk baseOffset DIR_ENTRY_SIZE
                (entrySerialize e)
              let fs3 : FS := { fs2 with disk := w.2 }
              if w.1 ≠ DIR_ENTRY_SIZE then .panicked fs3
              else
                let fs4 := updateDInode fs3 ninum
                  (fun d => { d with links_num := d.links_num + 1 })
                .ok fs4 ninum

/-! ## Inode cache (`inode.rs`, `InodeCacheBuffer`) -/

/-- The path-separator byte of `/`. -/
def SLASH : Nat := 47

/-- Whether position `p + 1` is a char boundary of the path, where
`rest` is the path suffix after position `p` (`str::is_char_boundary`):
either the string ends at `p + 1` or the byte there is not a UTF-8
continuation byte (`0x80 ≤ b < 0xC0`). -/
def nextIsCharBoundary : List Nat → Bool
  | [] => true
  | c :: _ => ! decide (128 ≤ c ∧ c < 192)

/-- A slash-consuming loop of `skip`
(`while p < path.len() && &path[p..p+1] == "/" { p += 1 }`, used both
for the leading slashes and for the slashes after the element), embedded
on the path suffix from the current position.  Each iteration slices
`&path[p..p+1]`, which panics (`none` here) when `p + 1` is not a char
boundary; position `p` itself is always a boundary along the sweep (it
is 0, or the previous iteration's slice already checked it). -/
def skipSlashLoop : List Nat → Option (List Nat)
  | [] => some []
  | b :: rest =>
    if nextIsCharBoundary rest = false then none
    else if b = SLASH then skipSlashLoop rest
    else some (b :: rest)

/-- The element loop of `skip`
(`while p < path.len() && &path[p..p+1] != "/" { p += 1 }`): collects
the slash-free run and the suffix from the terminating slash, with the
same char-boundary panic of the `&path[p..p+1]` slice. -/
def skipNameLoop : List Nat → Option (List Nat × List Nat)
  | [] => some ([], [])
  | b :: rest =>
    if nextIsCharBoundary rest = false then none
    else if b = SLASH then some ([], b :: rest)
    else
      match skipNameLoop rest with
      | none => none
      | some (nm, suf) => some (b :: nm, suf)

/-- Result of `skip`: the path was exhausted (the source's `None`), an
element was found together with the remainder, or one of the
`&path[p..p+1]` slices panicked on a char boundary (which the source
does on any path containing a multi-byte UTF-8 character at a scanned
position). -/
inductive SkipRes where
  | exhausted
  | found (name rest : List Nat)
  | panicked
deriving DecidableEq

/-- Skip the next path element (`skip` in `lib.rs`): scan over the
leading slashes; on an exhausted path return `None`; otherwise scan the
slash-free element and the slashes after it and return both parts.
Every scanned position slices `&path[p..p+1]`, which panics when the
following byte is a UTF-8 continuation byte; the final range slices
`&path[name_start..name_start+len]` and `&path[p..]` use only
already-checked boundaries and add no panic. -/
def skip (path : List Nat) : SkipRes :=
  match skipSlashLoop path with
  | Option.none => SkipRes.panicked
  | some [] => SkipRes.exhausted
  | some q =>
    match skipNameLoop q with
    | Option.none => SkipRes.panicked
    | some (nm, suf) =>
      match skipSlashLoop suf with
      | Option.none => SkipRes.panicked
      | some rest => SkipRes.found nm rest

/-- Result of `get_inode_from_path`: a resolved inode, the source's
`None`, or a propagated char-boundary panic of `skip`. -/
inductive PathRes where
  | ok (i : Nat)
  | notFound
  | panicked
deriving DecidableEq

/-- The fuelled recursion of `FileSystem::get_inode_from_path`: an empty
path resolves to the start inode; otherwise take the next element with
`skip` (a path of slashes only yields `None`; a char-boundary panic of
`skip` propagates), require the current inode to be a directory, look
the element up and recurse on the remainder.  Inode handles are their
inode numbers. -/
def getInodeFromPathF (fs : FS) : Nat → List Nat → Nat → PathRes
  | 0, _, _ => PathRes.notFound
  | fuel + 1, path, startAt =>
    if path = [] then PathRes.ok startAt
    else
      match skip path with
      | SkipRes.panicked => PathRes.panicked
      | SkipRes.exhausted => PathRes.notFound
      | SkipRes.found name nextPath =>
        if (fs.inodes startAt).type_ ≠ InodeType.Directory then PathRes.notFound
        else
          match look_up fs (fs.inodes startAt) name with
          | some nextIp => getInodeFromPathF fs fuel nextPath nextIp
          | none => PathRes.notFound

/-- Resolve a path from a start inode (`FileSystem::get_inode_from_path`).
Each recursion step consumes at least one byte of the path, so
`path.length + 1` fuel always suffices. -/
def get_inode_from_path (fs : FS) (path : List Nat) (startAt : Nat) : PathRes :=
  getInodeFromPathF fs (path.length + 1) path startAt

/-- Modelled from the spec: the non-empty `/`-separated components of a
path, written from the claim's words (repeatedly take the next non-empty
slash-delimited component). -/
def components : List Nat → List (List Nat)
  | [] => []
  | c :: t =>
    if c = SLASH then components t
    else (c :: t.takeWhile (fun b => b ≠ SLASH)) :: components (t.dropWhile (fun b => b ≠ SLASH))
termination_by l => l.length
decreasing_by
  · simp only [List.length_cons]; omega
  · simp only [List.length_cons]
    exact Nat.lt_succ_of_le (List.dropWhile_sublist _).length_le

/-- Modelled from the spec: resolution over a component list, written
from the claim's words (at each step require a directory, look the
component up, recurse; no components left returns the current inode). -/
def resolveComponents (fs : FS) : List (List Nat) → Nat → Option Nat
  | [], s => some s
  | c :: rest, s =>
    if (fs.inodes s).type_ ≠ InodeType.Directory then none
    else
      match look_up fs (fs.inodes s) c with
      | some nxt => resolveComponents fs rest nxt
      | none => none


/-! ## Specification shorthands and concrete witness states -/

/-- Number of blocks needed for `s` bytes (`ceil(s / BLOCK_SIZE)`). -/
def ceilB (s : Nat) : Nat := (s + BLOCK_SIZE - 1) / BLOCK_SIZE

/-- A block id lies in the data region `[data_start, data_start + data_blocks)`. -/
def dataRange (sb : SuperBlk) (b : Nat) : Prop :=
  sb.data_start ≤ b ∧ b < sb.data_start + sb.data_blocks

instance (sb : SuperBlk) (b : Nat) : Decidable (dataRange sb b) := by
  unfold dataRange
  infer_instance

/-- The data-bitmap bit recording allocation of data block `bid`
(slot `bid - data_start`, `8 * BLOCK_SIZE` slots per bitmap block, as
mapped by `allocate_bmap`). -/
def dataBitSet (fs : FS) (bid : Nat) : Bool :=
  bitOf (fs.disk (fs.sb.data_bmap_start + (bid - fs.sb.data_start) / (8 * BLOCK_SIZE)))
    ((bid - fs.sb.data_start) % (8 * BLOCK_SIZE))

/-- The inode-bitmap bit recording allocation of inode `inum`. -/
def inodeBitSet (fs : FS) (inum : Nat) : Bool :=
  bitOf (fs.disk (fs.sb.inode_bmap_start + inum / (8 * BLOCK_SIZE)))
    (inum % (8 * BLOCK_SIZE))

/-- Basic shape of the on-disk regions, as produced by every
`FileSystem::create` layout: boot and super blocks first, then the inode
bitmap, the inode blocks, the data bitmap and the data region, with the
data bitmap holding at least one bit per data block. -/
def LayoutWF (sb : SuperBlk) : Prop :=
  2 ≤ sb.inode_bmap_start ∧ sb.inode_bmap_start ≤ sb.inode_start ∧
    sb.inode_start ≤ sb.data_bmap_start ∧ sb.data_bmap_start ≤ sb.data_start ∧
    sb.data_blocks ≤ (sb.data_start - sb.data_bmap_start) * (8 * BLOCK_SIZE)

instance (sb : SuperBlk) : Decidable (LayoutWF sb) := by
  unfold LayoutWF
  infer_instance

/-- Concrete inode record for the C1 witness: a 100-byte file stored in
block 7. -/
def dC1 : DInode :=
  { type_ := InodeType.File, indirect := 0, links_num := 1, size := 100,
    addresses := fun j => if j = 0 then 7 else 0 }

/-- Concrete disk for the C1 witness. -/
def diskC1 : Disk := fun b i => if b = 7 then i + 1 else 0

/-- Concrete bitmap block for the C8 witness: byte 0 saturated, byte 1
holding `0b101`, so the smallest clear bit is 9. -/
def blkC8 : Blk := fun i => if i = 0 then 255 else if i = 1 then 5 else 0

/-- Concrete 24-byte NUL-free name for the C9 witness. -/
def nameC9 : List Nat :=
  [1, 2, 3, 4, 5, 6, 7, 8, 9, 10, 11, 12, 13, 14, 15, 16, 17, 18, 19, 20, 21, 22, 23, 24]

/-- Superblock of the small concrete filesystem used by several
witnesses: 64 blocks, inode bitmap at 2, one inode block at 3, data
bitmap at 4, data region `[5, 64)`. -/
def sbEx : SuperBlk :=
  { blocks := 64, inode_bmap_start := 2, inode_start := 3, inode_blocks := 1,
    data_bmap_start := 4, data_start := 5, data_blocks := 59 }

/-- Concrete filesystem with an empty root directory at inode 0 (its
inode-bitmap bit set, all data blocks free). -/
def fsEx : FS :=
  { sb := sbEx
    disk := fun b => if b = 2 then (fun i => if i = 0 then 1 else 0) else (fun _ => 0)
    inodes := fun i =>
      if i = 0 then
        { type_ := InodeType.Directory, indirect := 0, links_num := 1, size := 0,
          addresses := fun _ => 0 }
      else dinodeInit InodeType.Invalid }

/-- Concrete filesystem for the C3 failing input: inode 1 holds a file
of exactly `N_DIRECT` blocks (ids `5..32`), data-bitmap bits `0..27`
set, so growing by one block crosses the direct-to-indirect
threshold. -/
def fsC3 : FS :=
  { sb := sbEx
    disk := fun b =>
      if b = 2 then (fun i => if i = 0 then 3 else 0)
      else if b = 4 then (fun i => if i < 3 then 255 else if i = 3 then 15 else 0)
      else (fun _ => 0)
    inodes := fun i =>
      if i = 1 then
        { type_ := InodeType.File, indirect := 0, links_num := 1, size := N_DIRECT * BLOCK_SIZE,
          addresses := fun j => if j < N_DIRECT then 5 + j else 0 }
      else if i = 0 then
        { type_ := InodeType.Directory, indirect := 0, links_num := 1, size := 0,
          addresses := fun _ => 0 }
      else dinodeInit InodeType.Invalid }

/-- Name of 25 bytes for the C10 witness (one byte too long for a
directory entry). -/
def nameC10 : List Nat := List.replicate 25 97

/-- The NUL-trimmed name of directory entry `i` of directory inode `d`,
as `FileSystem::look_up` reads it: read the 32 entry bytes at offset
`DIR_ENTRY_SIZE * i` and trim the name array.  Specification shorthand
for stating properties of the directory scan. -/
def entryNameAt (d : DInode) (disk : Disk) (i : Nat) : List Nat :=
  dirEntName (entryName24 (read_data d disk (DIR_ENTRY_SIZE * i) DIR_ENTRY_SIZE (fun _ => 0)).2)

/-! ## Theorems.  Generic facts about the block-copy loops -/

/-- Positive block size, in the form the arithmetic lemmas want. -/
theorem block_size_pos : 0 < BLOCK_SIZE := by norm_num [BLOCK_SIZE]

/-- Full characterization of `readLoop`: with the block-index invariant
and enough fuel, it returns `completed + (endPos - start)` bytes and
fills exactly the bytes `[completed, completed + (endPos - start))` of
the buffer with the corresponding file bytes. -/
theorem readLoop_spec (d : DInode) (disk : Disk) (endPos : Nat) :
    ∀ (fuel start startBlock completed : Nat) (buf : Nat → Nat),
      (startBlock = start / BLOCK_SIZE ∨ endPos ≤ start) →
      completed ≤ start →
      endPos - start < fuel →
      (readLoop d disk endPos fuel start startBlock completed buf).1
          = completed + (endPos - start) ∧
      ∀ j, (readLoop d disk endPos fuel start startBlock completed buf).2 j
          = if completed ≤ j ∧ j < completed + (endPos - start)
            then dataByte d disk (start - completed + j) else buf j := by
  simp only [BLOCK_SIZE, dataByte, getBid]
  intro fuel
  induction fuel with
  | zero => intro start sB completed buf _ _ hfuel; omega
  | succ fuel ih =>
    intro start sB completed buf hsB hcs hfuel
    by_cases hlt : start < endPos
    · have hsB' : sB = start / 4096 := by
        rcases hsB with h | h
        · exact h
        · omega
      subst hsB'
      simp only [readLoop, BLOCK_SIZE, if_pos hlt]
      set incr := min endPos ((start / 4096 + 1) * 4096) - start with hincrdef
      have hincr_pos : 0 < incr := by omega
      have hchunk : start + incr ≤ (start / 4096 + 1) * 4096 := by omega
      have hchunk2 : start + incr ≤ endPos := by omega
      have hinv' : start / 4096 + 1 = (start + incr) / 4096 ∨ endPos ≤ start + incr := by omega
      obtain ⟨ih1, ih2⟩ := ih (start + incr) (start / 4096 + 1) (completed + incr) _ hinv'
        (by omega) (by omega)
      refine ⟨by rw [ih1]; omega, ?_⟩
      intro j
      rw [ih2 j]
      by_cases hj1 : completed + incr ≤ j ∧ j < completed + incr + (endPos - (start + incr))
      · rw [if_pos hj1, if_pos (show completed ≤ j ∧ j < completed + (endPos - start) by omega)]
        rw [show start + incr - (completed + incr) + j = start - completed + j by omega]
      · rw [if_neg hj1]
        show (if completed ≤ j ∧ j < completed + incr
            then disk
              (if start / 4096 < N_DIRECT then d.addresses (start / 4096)
               else if start / 4096 < MAX_BLOCKS_PER_INODE then
                 disk d.indirect (start / 4096 - N_DIRECT)
               else 0)
              (start % 4096 + (j - completed))
            else buf j)
          = _
        by_cases hj2 : completed ≤ j ∧ j < completed + incr
        · rw [if_pos hj2, if_pos (show completed ≤ j ∧ j < completed + (endPos - start) by omega)]
          have hdiv : (start - completed + j) / 4096 = start / 4096 := by omega
          have hmod : (start - completed + j) % 4096 = start % 4096 + (j - completed) := by omega
          rw [hdiv, hmod]
        · rw [if_neg hj2, if_neg (show ¬(completed ≤ j ∧ j < completed + (endPos - start)) by omega)]
    · have hz : endPos - start = 0 := by omega
      simp only [readLoop, if_neg hlt, hz]
      exact ⟨by omega, fun j => by rw [if_neg (by omega)]⟩

/-- Reading an inode (`read_data`) with `offset ≤ size` returns exactly
`min bufLen (size - offset)` bytes, stays within the size boundary, fills
the first `result.1` buffer bytes with the file bytes starting at
`offset`, and leaves the rest of the buffer unchanged. -/
theorem read_data_spec (d : DInode) (disk : Disk) (offset bufLen : Nat) (buf : Nat → Nat)
    (hoff : offset ≤ d.size) :
    (read_data d disk offset bufLen buf).1 = min bufLen (d.size - offset) ∧
    offset + (read_data d disk offset bufLen buf).1 ≤ d.size ∧
    (∀ j, j < (read_data d disk offset bufLen buf).1 →
        (read_data d disk offset bufLen buf).2 j = dataByte d disk (offset + j)) ∧
    (∀ j, (read_data d disk offset bufLen buf).1 ≤ j →
        (read_data d disk offset bufLen buf).2 j = buf j) := by
  simp only [read_data]
  obtain ⟨h1, h2⟩ := readLoop_spec d disk (offset + min bufLen (d.size - offset))
    (offset + min bufLen (d.size - offset) - offset + 1) offset (offset / BLOCK_SIZE) 0 buf
    (Or.inl rfl) (Nat.zero_le _) (by omega)
  rw [h1]
  have hmin : min bufLen (d.size - offset) ≤ d.size - offset := min_le_right _ _
  refine ⟨by omega, by omega, ?_, ?_⟩
  · intro j hj
    rw [h2 j, if_pos (by omega)]
    norm_num
  · intro j hj
    rw [h2 j, if_neg (by omega)]

/-- Count, block-id stability and frame property of `writeLoop`: it
writes `completed + (endPos - start)` bytes, never changes any block-id
mapping of the inode (its writes avoid the indirect index block by
hypothesis), and leaves every `(block, byte)` location untouched that
does not correspond to a file position in `[start, endPos)`. -/
theorem writeLoop_spec (d : DInode) (buf : Nat → Nat) (endPos : Nat) :
    ∀ (fuel start startBlock completed : Nat) (disk : Disk),
      (startBlock = start / BLOCK_SIZE ∨ endPos ≤ start) →
      completed ≤ start →
      endPos - start < fuel →
      (∀ idx, startBlock ≤ idx → idx * BLOCK_SIZE < endPos → getBid d disk idx ≠ d.indirect) →
      (writeLoop d buf endPos fuel start startBlock completed disk).1
          = completed + (endPos - start) ∧
      (∀ idx, getBid d (writeLoop d buf endPos fuel start startBlock completed disk).2 idx
          = getBid d disk idx) ∧
      (∀ b k,
        (∀ p, start ≤ p → p < endPos →
            ¬(b = getBid d disk (p / BLOCK_SIZE) ∧ k = p % BLOCK_SIZE)) →
        (writeLoop d buf endPos fuel start startBlock completed disk).2 b k = disk b k) := by
  simp only [BLOCK_SIZE]
  intro fuel
  induction fuel with
  | zero => intro start sB completed disk _ _ hfuel _; omega
  | succ fuel ih =>
    intro start sB completed disk hsB hcs hfuel hind
    by_cases hlt : start < endPos
    · have hsB' : sB = start / 4096 := by
        rcases hsB with h | h
        · exact h
        · omega
      subst hsB'
      simp only [writeLoop, BLOCK_SIZE, if_pos hlt]
      set incr := min endPos ((start / 4096 + 1) * 4096) - start with hincrdef
      have hincr_pos : 0 < incr := by omega
      have hchunk : start + incr ≤ (start / 4096 + 1) * 4096 := by omega
      have hchunk2 : start + incr ≤ endPos := by omega
      have hsBlb : start / 4096 * 4096 ≤ start := by omega
      have hbid0 : getBid d disk (start / 4096) ≠ d.indirect :=
        hind _ le_rfl (by omega)
      set bid0 := getBid d disk (start / 4096) with hbid0def
      set blk' : Blk := fun k =>
        if start % 4096 ≤ k ∧ k < start % 4096 + incr then
          buf (completed + (k - start % 4096))
        else disk bid0 k with hblkdef
      set disk1 := updDisk disk bid0 blk' with hdisk1def
      have hstab1 : ∀ idx, getBid d disk1 idx = getBid d disk idx := by
        intro idx
        unfold getBid
        by_cases h1 : idx < N_DIRECT
        · simp only [if_pos h1]
        · simp only [if_neg h1]
          by_cases h2 : idx < MAX_BLOCKS_PER_INODE
          · simp only [if_pos h2, hdisk1def]
            unfold updDisk
            have hne : d.indirect ≠ bid0 := fun hcon => hbid0 hcon.symm
            simp only [if_neg hne]
          · simp only [if_neg h2]
      have hind1 : ∀ idx, start / 4096 + 1 ≤ idx → idx * 4096 < endPos →
          getBid d disk1 idx ≠ d.indirect := by
        intro idx h1 h2
        rw [hstab1 idx]
        exact hind idx (by omega) h2
      have hinv' : start / 4096 + 1 = (start + incr) / 4096 ∨ endPos ≤ start + incr := by omega
      obtain ⟨ih1, ih2, ih3⟩ := ih (start + incr) (start / 4096 + 1) (completed + incr) disk1
        hinv' (by omega) (by omega) hind1
      refine ⟨by rw [ih1]; omega, ?_, ?_⟩
      · intro idx
        rw [ih2 idx, hstab1 idx]
      · intro b k hb
        have hb1 : ∀ p, start + incr ≤ p → p < endPos →
            ¬(b = getBid d disk1 (p / 4096) ∧ k = p % 4096) := by
          intro p h1 h2
          rw [hstab1]
          exact hb p (by omega) h2
        rw [ih3 b k hb1, hdisk1def]
        unfold updDisk
        by_cases hbb : b = bid0
        · rw [if_pos hbb]
          show (if start % 4096 ≤ k ∧ k < start % 4096 + incr
              then buf (completed + (k - start % 4096)) else disk bid0 k) = disk b k
          by_cases hkk : start % 4096 ≤ k ∧ k < start % 4096 + incr
          · exfalso
            have hklt : k < 4096 := by omega
            refine hb (start / 4096 * 4096 + k) (by omega) (by omega) ⟨?_, by omega⟩
            have hdivk : (start / 4096 * 4096 + k) / 4096 = start / 4096 := by omega
            rw [hdivk, ← hbid0def]
            exact hbb
          · rw [if_neg hkk, hbb]
        · rw [if_neg hbb]
    · have hz : endPos - start = 0 := by omega
      simp only [writeLoop, if_neg hlt, hz]
      exact ⟨by omega, fun idx => trivial, fun b k _ => trivial⟩

/-- Content property of `writeLoop`: when the block-id mapping is
injective on the touched index range (and avoids the indirect index
block), every file position in `[start, endPos)` ends up holding the
corresponding buffer byte. -/
theorem writeLoop_content (d : DInode) (buf : Nat → Nat) (endPos : Nat) :
    ∀ (fuel start startBlock completed : Nat) (disk : Disk),
      (startBlock = start / BLOCK_SIZE ∨ endPos ≤ start) →
      completed ≤ start →
      endPos - start < fuel →
      (∀ idx, startBlock ≤ idx → idx * BLOCK_SIZE < endPos → getBid d disk idx ≠ d.indirect) →
      (∀ q r, startBlock ≤ q → q < r → r * BLOCK_SIZE < endPos →
          getBid d disk q ≠ getBid d disk r) →
      ∀ p, start ≤ p → p < endPos →
        (writeLoop d buf endPos fuel start startBlock completed disk).2
            (getBid d disk (p / BLOCK_SIZE)) (p % BLOCK_SIZE)
          = buf (completed + (p - start)) := by
  simp only [BLOCK_SIZE]
  intro fuel
  induction fuel with
  | zero => intro start sB completed disk _ _ hfuel _ _ p h1 h2; omega
  | succ fuel ih =>
    intro start sB completed disk hsB hcs hfuel hind hinj p hp1 hp2
    have hlt : start < endPos := by omega
    have hsB' : sB = start / 4096 := by
      rcases hsB with h | h
      · exact h
      · omega
    subst hsB'
    simp only [writeLoop, BLOCK_SIZE, if_pos hlt]
    set incr := min endPos ((start / 4096 + 1) * 4096) - start with hincrdef
    have hincr_pos : 0 < incr := by omega
    have hchunk : start + incr ≤ (start / 4096 + 1) * 4096 := by omega
    have hchunk2 : start + incr ≤ endPos := by omega
    have hsBlb : start / 4096 * 4096 ≤ start := by omega
    have hbid0 : getBid d disk (start / 4096) ≠ d.indirect :=
      hind _ le_rfl (by omega)
    set bid0 := getBid d disk (start / 4096) with hbid0def
    set blk' : Blk := fun k =>
      if start % 4096 ≤ k ∧ k < start % 4096 + incr then
        buf (completed + (k - start % 4096))
      else disk bid0 k with hblkdef
    set disk1 := updDisk disk bid0 blk' with hdisk1def
    have hstab1 : ∀ idx, getBid d disk1 idx = getBid d disk idx := by
      intro idx
      unfold getBid
      by_cases h1 : idx < N_DIRECT
      · simp only [if_pos h1]
      · simp only [if_neg h1]
        by_cases h2 : idx < MAX_BLOCKS_PER_INODE
        · simp only [if_pos h2, hdisk1def]
          unfold updDisk
          have hne : d.indirect ≠ bid0 := fun hcon => hbid0 hcon.symm
          simp only [if_neg hne]
        · simp only [if_neg h2]
    have hind1 : ∀ idx, start / 4096 + 1 ≤ idx → idx * 4096 < endPos →
        getBid d disk1 idx ≠ d.indirect := by
      intro idx h1 h2
      rw [hstab1 idx]
      exact hind idx (by omega) h2
    have hinj1 : ∀ q r, start / 4096 + 1 ≤ q → q < r → r * 4096 < endPos →
        getBid d disk1 q ≠ getBid d disk1 r := by
      intro q r h1 h2 h3
      rw [hstab1 q, hstab1 r]
      exact hinj q r (by omega) h2 h3
    have hinv' : start / 4096 + 1 = (start + incr) / 4096 ∨ endPos ≤ start + incr := by omega
    by_cases hpin : p < start + incr
    · -- written by this iteration; preserved by the remaining ones
      have hpdiv : p / 4096 = start / 4096 := by omega
      obtain ⟨-, -, hframe⟩ := writeLoop_spec d buf endPos fuel (start + incr)
        (start / 4096 + 1) (completed + incr) disk1 hinv' (by omega) (by omega) hind1
      have hbk : ∀ p', start + incr ≤ p' → p' < endPos →
          ¬(bid0 = getBid d disk1 (p' / 4096) ∧ p % 4096 = p' % 4096) := by
        intro p' h1' h2' hcon
        have hstep : start + incr = (start / 4096 + 1) * 4096 := by omega
        have hgt : start / 4096 < p' / 4096 := by omega
        have hlb : p' / 4096 * 4096 ≤ p' := by omega
        refine hinj (start / 4096) (p' / 4096) le_rfl hgt (by omega) ?_
        rw [← hbid0def, hcon.1, hstab1]
      rw [hpdiv, ← hbid0def, hframe bid0 (p % 4096) hbk, hdisk1def]
      unfold updDisk
      rw [if_pos rfl]
      show (if start % 4096 ≤ p % 4096 ∧ p % 4096 < start % 4096 + incr
          then buf (completed + (p % 4096 - start % 4096)) else disk bid0 (p % 4096))
        = buf (completed + (p - start))
      rw [if_pos (by omega)]
      congr 1
      omega
    · -- written by a later iteration
      have hres := ih (start + incr) (start / 4096 + 1) (completed + incr) disk1 hinv'
        (by omega) (by omega) hind1 hinj1 p (by omega) hp2
      rw [hstab1] at hres
      rw [hres]
      congr 1
      omega

/-- Writing an inode (`write_data`) with `offset ≤ size` writes exactly
`min bufLen (size - offset)` bytes, stays within the size boundary,
changes no `(block, byte)` location other than those of the written file
positions, keeps every block-id mapping of the inode, and (when the
mapping is injective on the touched blocks) makes every written file
position hold the corresponding buffer byte. -/
theorem write_data_spec (d : DInode) (disk : Disk) (offset bufLen : Nat) (buf : Nat → Nat)
    (hoff : offset ≤ d.size)
    (hind : ∀ idx, idx * BLOCK_SIZE < offset + min bufLen (d.size - offset) →
        getBid d disk idx ≠ d.indirect) :
    (write_data d disk offset bufLen buf).1 = min bufLen (d.size - offset) ∧
    offset + (write_data d disk offset bufLen buf).1 ≤ d.size ∧
    (∀ idx, getBid d (write_data d disk offset bufLen buf).2 idx = getBid d disk idx) ∧
    (∀ b k,
      (∀ p, offset ≤ p → p < offset + (write_data d disk offset bufLen buf).1 →
          ¬(b = getBid d disk (p / BLOCK_SIZE) ∧ k = p % BLOCK_SIZE)) →
      (write_data d disk offset bufLen buf).2 b k = disk b k) ∧
    ((∀ q r, q < r → r * BLOCK_SIZE < offset + min bufLen (d.size - offset) →
        getBid d disk q ≠ getBid d disk r) →
      ∀ p, offset ≤ p → p < offset + (write_data d disk offset bufLen buf).1 →
        (write_data d disk offset bufLen buf).2
            (getBid d disk (p / BLOCK_SIZE)) (p % BLOCK_SIZE) = buf (p - offset)) := by
  have hmin : min bufLen (d.size - offset) ≤ d.size - offset := min_le_right _ _
  obtain ⟨h1, h2, h3⟩ := writeLoop_spec d buf (offset + min bufLen (d.size - offset))
    (offset + min bufLen (d.size - offset) - offset + 1) offset (offset / BLOCK_SIZE) 0 disk
    (Or.inl rfl) (Nat.zero_le _) (by omega) (fun idx _ h => hind idx h)
  have hcount : (write_data d disk offset bufLen buf).1 = min bufLen (d.size - offset) := by
    simp only [write_data]
    rw [h1]
    omega
  refine ⟨hcount, by omega, ?_, ?_, ?_⟩
  · intro idx
    simp only [write_data]
    exact h2 idx
  · intro b k hb
    rw [hcount] at hb
    simp only [write_data]
    exact h3 b k (fun p hp1 hp2 => hb p hp1 hp2)
  · intro hinj p hp1 hp2
    rw [hcount] at hp2
    simp only [write_data]
    have := writeLoop_content d buf (offset + min bufLen (d.size - offset))
      (offset + min bufLen (d.size - offset) - offset + 1) offset (offset / BLOCK_SIZE) 0 disk
      (Or.inl rfl) (Nat.zero_le _) (by omega) (fun idx _ h => hind idx h)
      (fun q r _ hqr hr => hinj q r hqr hr) p hp1 hp2
    rw [this, Nat.zero_add]

/-! ## Claim C1 -/

/-- C1: for every on-disk inode record `d`, offset with `offset ≤ d.size`
and buffer, `read_data` and `write_data` each transfer and return exactly
`min bufLen (d.size - offset)` bytes, copying only file bytes in
`[offset, offset + returned)`: the read fills exactly the first
`returned` buffer bytes with those file bytes (leaving the rest of the
buffer untouched), the write changes no `(block, byte)` location other
than those of the written file positions and, when the block-id mapping
is injective on the touched blocks, stores the buffer bytes there.
Neither operation crosses the size boundary
(`offset + returned ≤ d.size`).  The record's block-id mapping is assumed
not to alias the indirect index block on the mapped range (true of every
filesystem-created inode, whose `indirect` stays 0 while data blocks are
nonzero). -/
theorem claim_C1 (d : DInode) (disk : Disk) (offset bufLen : Nat) (buf : Nat → Nat)
    (hoff : offset ≤ d.size)
    (hind : ∀ idx, idx < (d.size + BLOCK_SIZE - 1) / BLOCK_SIZE →
        getBid d disk idx ≠ d.indirect) :
    ((read_data d disk offset bufLen buf).1 = min bufLen (d.size - offset) ∧
      offset + (read_data d disk offset bufLen buf).1 ≤ d.size ∧
      (∀ j, j < (read_data d disk offset bufLen buf).1 →
          (read_data d disk offset bufLen buf).2 j = dataByte d disk (offset + j)) ∧
      (∀ j, (read_data d disk offset bufLen buf).1 ≤ j →
          (read_data d disk offset bufLen buf).2 j = buf j)) ∧
    ((write_data d disk offset bufLen buf).1 = min bufLen (d.size - offset) ∧
      offset + (write_data d disk offset bufLen buf).1 ≤ d.size ∧
      (∀ idx, getBid d (write_data d disk offset bufLen buf).2 idx = getBid d disk idx) ∧
      (∀ b k,
        (∀ p, offset ≤ p → p < offset + (write_data d disk offset bufLen buf).1 →
            ¬(b = getBid d disk (p / BLOCK_SIZE) ∧ k = p % BLOCK_SIZE)) →
        (write_data d disk offset bufLen buf).2 b k = disk b k) ∧
      ((∀ q r, q < r → r * BLOCK_SIZE < offset + min bufLen (d.size - offset) →
          getBid d disk q ≠ getBid d disk r) →
        ∀ p, offset ≤ p → p < offset + (write_data d disk offset bufLen buf).1 →
          (write_data d disk offset bufLen buf).2
              (getBid d disk (p / BLOCK_SIZE)) (p % BLOCK_SIZE) = buf (p - offset))) := by
  have hBpos := block_size_pos
  have hind' : ∀ idx, idx * BLOCK_SIZE < offset + min bufLen (d.size - offset) →
      getBid d disk idx ≠ d.indirect := by
    intro idx h
    have hmin : min bufLen (d.size - offset) ≤ d.size - offset := min_le_right _ _
    refine hind idx ?_
    have h1 : idx * BLOCK_SIZE < d.size := by omega
    have h2 : idx * BLOCK_SIZE + 1 + (BLOCK_SIZE - 1) ≤ d.size + BLOCK_SIZE - 1 := by omega
    have h3 : idx * BLOCK_SIZE + 1 + (BLOCK_SIZE - 1) = (idx + 1) * BLOCK_SIZE := by
      have : (idx + 1) * BLOCK_SIZE = idx * BLOCK_SIZE + BLOCK_SIZE := by ring
      omega
    have h4 : (idx + 1) * BLOCK_SIZE ≤ d.size + BLOCK_SIZE - 1 := by omega
    calc idx < (idx + 1) := Nat.lt_succ_self idx
    _ = (idx + 1) * BLOCK_SIZE / BLOCK_SIZE := (Nat.mul_div_cancel _ hBpos).symm
    _ ≤ (d.size + BLOCK_SIZE - 1) / BLOCK_SIZE := Nat.div_le_div_right h4
  obtain ⟨w1, w2, w3, w4, w5⟩ := write_data_spec d disk offset bufLen buf hoff hind'
  exact ⟨read_data_spec d disk offset bufLen buf hoff, w1, w2, w3, w4, w5⟩

/-- Witness for C1 at a concrete input (offset 10, buffer length 20). -/
theorem claim_C1_witness :
    ((10 ≤ dC1.size ∧ ∀ idx, idx < (dC1.size + BLOCK_SIZE - 1) / BLOCK_SIZE →
        getBid dC1 diskC1 idx ≠ dC1.indirect) ∧
    (((read_data dC1 diskC1 10 20 (fun _ => 0)).1 = min 20 (dC1.size - 10) ∧
      10 + (read_data dC1 diskC1 10 20 (fun _ => 0)).1 ≤ dC1.size ∧
      (∀ j, j < (read_data dC1 diskC1 10 20 (fun _ => 0)).1 →
          (read_data dC1 diskC1 10 20 (fun _ => 0)).2 j = dataByte dC1 diskC1 (10 + j)) ∧
      (∀ j, (read_data dC1 diskC1 10 20 (fun _ => 0)).1 ≤ j →
          (read_data dC1 diskC1 10 20 (fun _ => 0)).2 j = (fun _ => 0) j)) ∧
    ((write_data dC1 diskC1 10 20 (fun _ => 0)).1 = min 20 (dC1.size - 10) ∧
      10 + (write_data dC1 diskC1 10 20 (fun _ => 0)).1 ≤ dC1.size ∧
      (∀ idx, getBid dC1 (write_data dC1 diskC1 10 20 (fun _ => 0)).2 idx
          = getBid dC1 diskC1 idx) ∧
      (∀ b k,
        (∀ p, 10 ≤ p → p < 10 + (write_data dC1 diskC1 10 20 (fun _ => 0)).1 →
            ¬(b = getBid dC1 diskC1 (p / BLOCK_SIZE) ∧ k = p % BLOCK_SIZE)) →
        (write_data dC1 diskC1 10 20 (fun _ => 0)).2 b k = diskC1 b k) ∧
      ((∀ q r, q < r → r * BLOCK_SIZE < 10 + min 20 (dC1.size - 10) →
          getBid dC1 diskC1 q ≠ getBid dC1 diskC1 r) →
        ∀ p, 10 ≤ p → p < 10 + (write_data dC1 diskC1 10 20 (fun _ => 0)).1 →
          (write_data dC1 diskC1 10 20 (fun _ => 0)).2
              (getBid dC1 diskC1 (p / BLOCK_SIZE)) (p % BLOCK_SIZE)
            = (fun _ => 0 : Nat → Nat) (p - 10))))) :=
  ⟨⟨by decide, by decide⟩,
    claim_C1 dC1 diskC1 10 20 (fun _ => 0) (by decide) (by decide)⟩

/-! ## Bitmap allocator facts -/

/-- A one-bit mask tests true at its own position. -/
theorem one_shiftLeft_testBit_self (o : Nat) : (1 <<< o).testBit o = true := by
  simp [Nat.testBit_shiftLeft]

/-- A one-bit mask tests false everywhere else. -/
theorem one_shiftLeft_testBit_ne (o o' : Nat) (h : o ≠ o') : (1 <<< o).testBit o' = false := by
  rw [Nat.testBit_shiftLeft]
  by_cases h2 : o' ≥ o
  · have h3 : o' - o ≠ 0 := by omega
    have h4 : Nat.testBit 1 (o' - o) = false := by
      refine Bool.eq_false_iff.mpr (fun hc => h3 ?_)
      exact (@Nat.testBit_one_eq_true_iff_self_eq_zero (o' - o)).mp hc
    simp [h4]
  · simp [h2]

/-- A saturated byte has all eight bits set. -/
theorem testBit_255 (o : Nat) (h : o < 8) : Nat.testBit 255 o = true := by
  interval_cases o <;> decide

/-- The bit scan of a byte (`for offset in 0..8`) finds the lowest clear
bit in its window, and reports `none` exactly when the window is all
ones. -/
theorem byteFirstClear_spec (byte : Nat) : ∀ (k o : Nat),
    (∀ off, byteFirstClear byte k o = some off →
        o ≤ off ∧ off < o + k ∧ byte.testBit off = false ∧
        ∀ o', o ≤ o' → o' < off → byte.testBit o' = true) ∧
    (byteFirstClear byte k o = none → ∀ o', o ≤ o' → o' < o + k → byte.testBit o' = true) := by
  intro k
  induction k with
  | zero =>
    intro o
    exact ⟨fun off h => by simp [byteFirstClear] at h, fun _ o' h1 h2 => by omega⟩
  | succ k ih =>
    intro o
    by_cases hb : byte.testBit o
    · have heq : byteFirstClear byte (k + 1) o = byteFirstClear byte k (o + 1) := by
        simp [byteFirstClear, hb]
      obtain ⟨ih1, ih2⟩ := ih (o + 1)
      constructor
      · intro off h
        rw [heq] at h
        obtain ⟨h1, h2, h3, h4⟩ := ih1 off h
        refine ⟨by omega, by omega, h3, fun o' ho1 ho2 => ?_⟩
        rcases Nat.eq_or_lt_of_le ho1 with he | hlt
        · rw [← he]; exact hb
        · exact h4 o' (by omega) ho2
      · intro h o' h1 h2
        rw [heq] at h
        rcases Nat.eq_or_lt_of_le h1 with he | hlt
        · rw [← he]; exact hb
        · exact ih2 h o' (by omega) (by omega)
    · have heq : byteFirstClear byte (k + 1) o = some o := by
        simp [byteFirstClear, hb]
      constructor
      · intro off h
        rw [heq] at h
        obtain rfl : o = off := by injection h
        exact ⟨le_rfl, by omega, Bool.eq_false_iff.mpr hb, fun o' h1 h2 => by omega⟩
      · intro h
        rw [heq] at h
        exact absurd h (by simp)

/-- The byte scan of `BitmapBlock::allocate` finds the lowest clear bit
of the scanned window, and reports `none` exactly when the window is all
ones. -/
theorem bmScan_spec (blk : Blk) : ∀ (n i : Nat),
    (∀ k, bmScan blk n i = some k →
        8 * i ≤ k ∧ k < 8 * (i + n) ∧ bitOf blk k = false ∧
        ∀ j, 8 * i ≤ j → j < k → bitOf blk j = true) ∧
    (bmScan blk n i = none → ∀ j, 8 * i ≤ j → j < 8 * (i + n) → bitOf blk j = true) := by
  intro n
  induction n with
  | zero =>
    intro i
    exact ⟨fun k h => by simp [bmScan] at h, fun _ j h1 h2 => by omega⟩
  | succ n ih =>
    intro i
    obtain ⟨ih1, ih2⟩ := ih (i + 1)
    have hbyte : ∀ j, 8 * i ≤ j → j < 8 * (i + 1) → bitOf blk j = bitOf blk (8 * i + j % 8) := by
      intro j h1 h2
      have : j = 8 * i + j % 8 := by omega
      rw [← this]
    have hjdiv : ∀ j, 8 * i ≤ j → j < 8 * (i + 1) → j / 8 = i := by
      intro j h1 h2; omega
    by_cases hff : blk i = 255
    · have heq : bmScan blk (n + 1) i = bmScan blk n (i + 1) := by
        simp [bmScan, hff]
      have hful : ∀ j, 8 * i ≤ j → j < 8 * (i + 1) → bitOf blk j = true := by
        intro j h1 h2
        unfold bitOf
        rw [hjdiv j h1 h2, hff]
        exact testBit_255 _ (by omega)
      constructor
      · intro k h
        rw [heq] at h
        obtain ⟨h1, h2, h3, h4⟩ := ih1 k h
        refine ⟨by omega, by omega, h3, fun j hj1 hj2 => ?_⟩
        rcases Nat.lt_or_ge j (8 * (i + 1)) with hlt | hge
        · exact hful j hj1 hlt
        · exact h4 j hge hj2
      · intro h j h1 h2
        rw [heq] at h
        rcases Nat.lt_or_ge j (8 * (i + 1)) with hlt | hge
        · exact hful j h1 hlt
        · exact ih2 h j hge (by omega)
    · obtain ⟨bfc1, bfc2⟩ := byteFirstClear_spec (blk i) 8 0
      rcases hbfc : byteFirstClear (blk i) 8 0 with _ | off
      · -- byte not 0xff but no clear bit in 0..8: continue scanning
        have heq : bmScan blk (n + 1) i = bmScan blk n (i + 1) := by
          simp [bmScan, hff, hbfc]
        have hful : ∀ j, 8 * i ≤ j → j < 8 * (i + 1) → bitOf blk j = true := by
          intro j h1 h2
          unfold bitOf
          rw [hjdiv j h1 h2]
          exact bfc2 hbfc _ (Nat.zero_le _) (by omega)
        constructor
        · intro k h
          rw [heq] at h
          obtain ⟨h1, h2, h3, h4⟩ := ih1 k h
          refine ⟨by omega, by omega, h3, fun j hj1 hj2 => ?_⟩
          rcases Nat.lt_or_ge j (8 * (i + 1)) with hlt | hge
          · exact hful j hj1 hlt
          · exact h4 j hge hj2
        · intro h j h1 h2
          rw [heq] at h
          rcases Nat.lt_or_ge j (8 * (i + 1)) with hlt | hge
          · exact hful j h1 hlt
          · exact ih2 h j hge (by omega)
      · obtain ⟨ho1, ho2, ho3, ho4⟩ := bfc1 off hbfc
        have heq : bmScan blk (n + 1) i = some (i * 8 + off) := by
          simp [bmScan, hff, hbfc]
        constructor
        · intro k h
          rw [heq] at h
          obtain rfl : i * 8 + off = k := by injection h
          refine ⟨by omega, by omega, ?_, fun j hj1 hj2 => ?_⟩
          · unfold bitOf
            have hd : (i * 8 + off) / 8 = i := by omega
            have hm : (i * 8 + off) % 8 = off := by omega
            rw [hd, hm]
            exact ho3
          · unfold bitOf
            have hd : j / 8 = i := by omega
            rw [hd]
            exact ho4 _ (Nat.zero_le _) (by omega)
        · intro h
          rw [heq] at h
          exact absurd h (by simp)

/-- Successful `BitmapBlock::allocate`: the returned index is the lowest
clear bit, it is set in the result, and nothing else changes. -/
theorem bitmapAllocate_some (blk : Blk) (k : Nat) (h : (bitmapAllocate blk).1 = some k) :
    k < 8 * BLOCK_SIZE ∧ bitOf blk k = false ∧ (∀ j, j < k → bitOf blk j = true) ∧
    (∀ i, i ≠ k / 8 → (bitmapAllocate blk).2 i = blk i) ∧
    bitOf (bitmapAllocate blk).2 k = true ∧
    (∀ j, j ≠ k → bitOf (bitmapAllocate blk).2 j = bitOf blk j) := by
  obtain ⟨s1, -⟩ := bmScan_spec blk BLOCK_SIZE 0
  rcases hscan : bmScan blk BLOCK_SIZE 0 with _ | k'
  · simp only [bitmapAllocate, hscan] at h
    exact Option.noConfusion h
  · simp only [bitmapAllocate, hscan] at h
    obtain rfl : k' = k := by injection h
    obtain ⟨hs1, hs2, hs3, hs4⟩ := s1 k' hscan
    have hblk2 : (bitmapAllocate blk).2
        = fun i => if i = k' / 8 then blk (k' / 8) ||| 1 <<< (k' % 8) else blk i := by
      simp only [bitmapAllocate, hscan]
    rw [hblk2]
    refine ⟨by omega, hs3, fun j hj => hs4 j (by omega) hj, ?_, ?_, ?_⟩
    · intro i hi
      simp only [if_neg hi]
    · unfold bitOf
      simp [Nat.testBit_or, one_shiftLeft_testBit_self]
    · intro j hj
      unfold bitOf
      by_cases hb : j / 8 = k' / 8
      · have hm : k' % 8 ≠ j % 8 := by omega
        rw [hb]
        simp [Nat.testBit_or, one_shiftLeft_testBit_ne _ _ hm]
      · simp [hb]

/-- Failed `BitmapBlock::allocate`: the block is unchanged and every bit
is set. -/
theorem bitmapAllocate_none (blk : Blk) (h : (bitmapAllocate blk).1 = none) :
    (bitmapAllocate blk).2 = blk ∧ ∀ j, j < 8 * BLOCK_SIZE → bitOf blk j = true := by
  obtain ⟨-, s2⟩ := bmScan_spec blk BLOCK_SIZE 0
  rcases hscan : bmScan blk BLOCK_SIZE 0 with _ | k'
  · constructor
    · simp only [bitmapAllocate, hscan]
    · exact fun j h1 => s2 hscan j (Nat.zero_le _) (by omega)
  · simp only [bitmapAllocate, hscan] at h
    exact Option.noConfusion h

/-- When every bit is set, `BitmapBlock::allocate` fails. -/
theorem bitmapAllocate_full (blk : Blk) (h : ∀ j, j < 8 * BLOCK_SIZE → bitOf blk j = true) :
    (bitmapAllocate blk).1 = none := by
  obtain ⟨s1, -⟩ := bmScan_spec blk BLOCK_SIZE 0
  rcases hscan : bmScan blk BLOCK_SIZE 0 with _ | k'
  · simp only [bitmapAllocate, hscan]
  · obtain ⟨hs1, hs2, hs3, -⟩ := s1 k' hscan
    rw [h k' (by omega)] at hs3
    exact absurd hs3 (by simp)

/-- Bits already set stay set across `BitmapBlock::allocate`. -/
theorem bitmapAllocate_mono (blk : Blk) (j : Nat) (h : bitOf blk j = true) :
    bitOf (bitmapAllocate blk).2 j = true := by
  rcases hres : (bitmapAllocate blk).1 with _ | k
  · rw [(bitmapAllocate_none blk hres).1]
    exact h
  · obtain ⟨-, -, -, -, h5, h6⟩ := bitmapAllocate_some blk k hres
    by_cases hjk : j = k
    · rw [hjk]; exact h5
    · rw [h6 j hjk]; exact h

/-! ## Claim C8 -/

/-- C8: `BitmapBlock::allocate` returns `some k` only for the smallest
clear-bit index `k`, sets exactly that bit (every other bit unchanged),
and returns `none` leaving the block unchanged exactly when every bit is
already set. -/
theorem claim_C8 (blk : Blk) :
    (∀ k, (bitmapAllocate blk).1 = some k →
        k < 8 * BLOCK_SIZE ∧ bitOf blk k = false ∧ (∀ j, j < k → bitOf blk j = true) ∧
        bitOf (bitmapAllocate blk).2 k = true ∧
        (∀ j, j ≠ k → bitOf (bitmapAllocate blk).2 j = bitOf blk j)) ∧
    (((bitmapAllocate blk).1 = none ∧ (bitmapAllocate blk).2 = blk) ↔
      (∀ j, j < 8 * BLOCK_SIZE → bitOf blk j = true)) := by
  constructor
  · intro k h
    obtain ⟨h1, h2, h3, -, h5, h6⟩ := bitmapAllocate_some blk k h
    exact ⟨h1, h2, h3, h5, h6⟩
  · constructor
    · rintro ⟨h1, -⟩
      exact (bitmapAllocate_none blk h1).2
    · intro h
      have hn := bitmapAllocate_full blk h
      exact ⟨hn, (bitmapAllocate_none blk hn).1⟩

/-- Witness for C8: on `blkC8` the allocator returns bit 9, the smallest
clear bit, and sets exactly it. -/
theorem claim_C8_witness :
    (bitmapAllocate blkC8).1 = some 9 ∧
    (9 < 8 * BLOCK_SIZE ∧ bitOf blkC8 9 = false ∧ (∀ j, j < 9 → bitOf blkC8 j = true) ∧
      bitOf (bitmapAllocate blkC8).2 9 = true ∧
      (∀ j, j ≠ 9 → bitOf (bitmapAllocate blkC8).2 j = bitOf blkC8 j)) :=
  ⟨by decide, (claim_C8 blkC8).1 9 (by decide)⟩

/-! ## Claim C9 -/

/-- NUL-trimming a NUL-free name followed by NUL padding recovers the
name. -/
theorem dirEntName_padded (m : Nat) : ∀ (n : List Nat), (∀ b ∈ n, b ≠ 0) →
    dirEntName (n ++ List.replicate m 0) = n := by
  intro n
  induction n with
  | nil =>
    intro _
    cases m with
    | zero => rfl
    | succ m => simp [dirEntName, List.replicate]
  | cons a t ih =>
    intro hnz
    have ha : a ≠ 0 := hnz a (by simp)
    have ht := ih (fun b hb => hnz b (by simp [hb]))
    simp only [dirEntName, List.cons_append, List.takeWhile_cons] at ht ⊢
    rw [show (decide (a ≠ 0)) = true by simp [ha]]
    simpa using ht

/-- C9: for a NUL-free name of byte length exactly 24, `DirEntry::new`
stores the name itself (no trailing NUL fits in the 24-byte array) and
`name()` returns all 24 bytes, so the accessor round-trips the name. -/
theorem claim_C9 (name : List Nat) (inum : Nat)
    (hlen : name.length = DIR_NAME_SIZE) (hnz : ∀ b ∈ name, b ≠ 0) :
    dirEntNew name inum = some { inode_num := inum, name24 := name } ∧
    dirEntName name = name ∧
    name.length = DIR_NAME_SIZE := by
  refine ⟨?_, ?_, hlen⟩
  · unfold dirEntNew
    rw [if_pos (by omega)]
    have hz : DIR_NAME_SIZE - name.length = 0 := by omega
    rw [hz]
    simp
  · have := dirEntName_padded 0 name hnz
    simpa using this

/-- Witness for C9 at a concrete 24-byte NUL-free name. -/
theorem claim_C9_witness :
    (nameC9.length = DIR_NAME_SIZE ∧ ∀ b ∈ nameC9, b ≠ 0) ∧
    (dirEntNew nameC9 5 = some { inode_num := 5, name24 := nameC9 } ∧
      dirEntName nameC9 = nameC9 ∧
      nameC9.length = DIR_NAME_SIZE) :=
  ⟨⟨by decide, by decide⟩, claim_C9 nameC9 5 (by decide) (by decide)⟩

/-! ## Allocation through the bitmaps (`allocate_bmap` and its callers) -/

/-- Characterization of the `allocate_bmap` scan loop: superblock and
inode table untouched; on success the returned slot's bit was clear and
becomes set, every other bit of the region is unchanged, and no block
other than the found bitmap block changes; on failure nothing changes. -/
theorem allocateBmapLoop_spec (start : Nat) : ∀ (n i : Nat) (fs : FS), start ≤ i →
    (∀ slot fs', allocateBmapLoop start n i fs = (some slot, fs') →
      fs'.sb = fs.sb ∧ fs'.inodes = fs.inodes ∧
      (i - start) * (8 * BLOCK_SIZE) ≤ slot ∧ slot < (i - start + n) * (8 * BLOCK_SIZE) ∧
      bitOf (fs.disk (start + slot / (8 * BLOCK_SIZE))) (slot % (8 * BLOCK_SIZE)) = false ∧
      bitOf (fs'.disk (start + slot / (8 * BLOCK_SIZE))) (slot % (8 * BLOCK_SIZE)) = true ∧
      (∀ s', s' ≠ slot →
        bitOf (fs'.disk (start + s' / (8 * BLOCK_SIZE))) (s' % (8 * BLOCK_SIZE))
          = bitOf (fs.disk (start + s' / (8 * BLOCK_SIZE))) (s' % (8 * BLOCK_SIZE))) ∧
      (∀ b k, b ≠ start + slot / (8 * BLOCK_SIZE) → fs'.disk b k = fs.disk b k)) ∧
    (∀ fs', allocateBmapLoop start n i fs = (none, fs') →
      fs'.sb = fs.sb ∧ fs'.inodes = fs.inodes ∧ ∀ b, fs'.disk b = fs.disk b) := by
  intro n
  induction n with
  | zero =>
    intro i fs hi
    constructor
    · intro slot fs' h
      simp only [allocateBmapLoop] at h
      exact Option.noConfusion (congrArg Prod.fst h)
    · intro fs' h
      simp only [allocateBmapLoop] at h
      have h2 : fs = fs' := congrArg Prod.snd h
      subst h2
      exact ⟨rfl, rfl, fun b => rfl⟩
  | succ n ih =>
    intro i fs hi
    rcases hres : (bitmapAllocate (fs.disk i)).1 with _ | off
    · -- this block is full: the write-back leaves it unchanged, scan continues
      obtain ⟨hsame0, -⟩ := bitmapAllocate_none (fs.disk i) hres
      have heq : allocateBmapLoop start (n + 1) i fs
          = allocateBmapLoop start n (i + 1)
            { fs with disk := updDisk fs.disk i (bitmapAllocate (fs.disk i)).2 } := by
        simp only [allocateBmapLoop, hres]
      set fs1 : FS := { fs with disk := updDisk fs.disk i (bitmapAllocate (fs.disk i)).2 }
        with hfs1
      have hsame : ∀ b, fs1.disk b = fs.disk b := by
        intro b
        show updDisk fs.disk i (bitmapAllocate (fs.disk i)).2 b = fs.disk b
        unfold updDisk
        by_cases hb : b = i
        · rw [if_pos hb, hsame0, hb]
        · rw [if_neg hb]
      obtain ⟨ihs, ihn⟩ := ih (i + 1) fs1 (by omega)
      constructor
      · intro slot fs' h
        rw [heq] at h
        obtain ⟨c1, c2, c3, c4, c5, c6, c7, c8⟩ := ihs slot fs' h
        simp only [BLOCK_SIZE] at c3 c4
        refine ⟨c1, c2, ?_, ?_, ?_, c6, ?_, ?_⟩
        · simp only [BLOCK_SIZE]; omega
        · simp only [BLOCK_SIZE]; omega
        · rw [← hsame]; exact c5
        · intro s' hs'
          rw [c7 s' hs', hsame]
        · intro b k hb
          rw [c8 b k hb, hsame]
      · intro fs' h
        rw [heq] at h
        obtain ⟨c1, c2, c3⟩ := ihn fs' h
        exact ⟨c1, c2, fun b => (c3 b).trans (hsame b)⟩
    · -- a clear bit found in this block
      obtain ⟨hk, hbit0, -, hother, hbit1, hbitkeep⟩ :=
        bitmapAllocate_some (fs.disk i) off hres
      have heq : allocateBmapLoop start (n + 1) i fs
          = (some ((i - start) * 8 * BLOCK_SIZE + off),
             { fs with disk := updDisk fs.disk i (bitmapAllocate (fs.disk i)).2 }) := by
        simp only [allocateBmapLoop, hres]
      constructor
      · intro slot fs' h
        rw [heq] at h
        obtain ⟨h1, h2⟩ : (i - start) * 8 * BLOCK_SIZE + off = slot ∧
            ({ fs with disk := updDisk fs.disk i (bitmapAllocate (fs.disk i)).2 } : FS) = fs' := by
          constructor
          · have := congrArg Prod.fst h
            simpa using this
          · exact congrArg Prod.snd h
        subst h2
        subst h1
        simp only [BLOCK_SIZE] at hk ⊢
        have hdiv : ((i - start) * 8 * 4096 + off) / (8 * 4096) = i - start := by omega
        have hmod : ((i - start) * 8 * 4096 + off) % (8 * 4096) = off := by omega
        have hblk : start + ((i - start) * 8 * 4096 + off) / (8 * 4096) = i := by omega
        refine ⟨trivial, trivial, by omega, by omega, ?_, ?_, ?_, ?_⟩
        · rw [hblk, hmod]
          exact hbit0
        · rw [hblk, hmod]
          show bitOf (updDisk fs.disk i (bitmapAllocate (fs.disk i)).2 i) off = true
          unfold updDisk
          rw [if_pos rfl]
          exact hbit1
        · intro s' hs'
          by_cases hb : start + s' / (8 * 4096) = i
          · have hs'div : s' / (8 * 4096) = i - start := by omega
            have hs'mod : s' % (8 * 4096) ≠ off := by omega
            rw [hb]
            show bitOf (updDisk fs.disk i (bitmapAllocate (fs.disk i)).2 i) (s' % (8 * 4096))
              = bitOf (fs.disk i) (s' % (8 * 4096))
            unfold updDisk
            rw [if_pos rfl]
            exact hbitkeep _ hs'mod
          · show bitOf (updDisk fs.disk i (bitmapAllocate (fs.disk i)).2 (start + s' / (8 * 4096)))
                (s' % (8 * 4096))
              = bitOf (fs.disk (start + s' / (8 * 4096))) (s' % (8 * 4096))
            unfold updDisk
            rw [if_neg hb]
        · intro b k hb
          rw [hblk] at hb
          show updDisk fs.disk i (bitmapAllocate (fs.disk i)).2 b k = fs.disk b k
          unfold updDisk
          rw [if_neg hb]
      · intro fs' h
        rw [heq] at h
        have := congrArg Prod.fst h
        simp at this

/-- Successful `allocate_data_block`: the returned id lies in the data
region, its bitmap bit flips from clear to set, all other data-bitmap
bits are unchanged, and no block outside the data-bitmap region
changes. -/
theorem allocate_data_block_some (fs : FS) (bid : Nat) (fs' : FS)
    (h : allocate_data_block fs = (some bid, fs')) :
    fs'.sb = fs.sb ∧ fs'.inodes = fs.inodes ∧
    dataRange fs.sb bid ∧
    dataBitSet fs bid = false ∧
    dataBitSet fs' bid = true ∧
    (∀ bid', dataRange fs.sb bid' → bid' ≠ bid → dataBitSet fs' bid' = dataBitSet fs bid') ∧
    (∀ b k, (b < fs.sb.data_bmap_start ∨ fs.sb.data_start ≤ b) → fs'.disk b k = fs.disk b k) := by
  obtain ⟨ls, -⟩ := allocateBmapLoop_spec fs.sb.data_bmap_start
    (fs.sb.data_start - fs.sb.data_bmap_start) fs.sb.data_bmap_start fs le_rfl
  rcases halloc : allocate_bmap fs fs.sb.data_bmap_start fs.sb.data_start with ⟨o, fs1⟩
  rcases o with _ | slot
  · simp only [allocate_data_block, halloc] at h
    exact Option.noConfusion (congrArg Prod.fst h)
  · simp only [allocate_data_block, halloc] at h
    by_cases hge : slot ≥ fs.sb.data_blocks
    · rw [if_pos hge] at h
      exact Option.noConfusion (congrArg Prod.fst h)
    · rw [if_neg hge] at h
      obtain ⟨hbid, hfs⟩ : fs.sb.data_start + slot = bid ∧ fs1 = fs' := by
        constructor
        · have := congrArg Prod.fst h
          simpa using this
        · exact congrArg Prod.snd h
      subst hfs
      subst hbid
      unfold allocate_bmap at halloc
      obtain ⟨c1, c2, c3, c4, c5, c6, c7, c8⟩ := ls slot fs1 halloc
      have hslot : fs.sb.data_start + slot - fs.sb.data_start = slot := by omega
      simp only [BLOCK_SIZE] at c4
      have hdivlt : slot / (8 * 4096) < fs.sb.data_start - fs.sb.data_bmap_start := by omega
      refine ⟨c1, c2, ⟨by omega, by omega⟩, ?_, ?_, ?_, ?_⟩
      · unfold dataBitSet
        rw [hslot]
        exact c5
      · unfold dataBitSet
        rw [c1, hslot]
        exact c6
      · intro bid' hr hne
        unfold dataBitSet
        rw [c1]
        refine c7 (bid' - fs.sb.data_start) ?_
        unfold dataRange at hr
        omega
      · intro b k hb
        refine c8 b k ?_
        simp only [BLOCK_SIZE]
        omega

/-- Successful `allocate_inode`: the returned number is in range, its
inode-bitmap bit was clear, the new record is re-initialized to the
given type, all other inode records are untouched, and no block outside
the inode-bitmap region changes. -/
theorem allocate_inode_some (fs : FS) (t : InodeType) (inum : Nat) (fs1 : FS)
    (h : allocate_inode fs t = (some inum, fs1)) :
    fs1.sb = fs.sb ∧
    inum < maxInodeNum fs.sb ∧
    inodeBitSet fs inum = false ∧
    (∀ j, j ≠ inum → fs1.inodes j = fs.inodes j) ∧
    fs1.inodes inum = dinodeInit t ∧
    (∀ b k, (b < fs.sb.inode_bmap_start ∨ fs.sb.inode_start ≤ b) → fs1.disk b k = fs.disk b k) := by
  obtain ⟨ls, -⟩ := allocateBmapLoop_spec fs.sb.inode_bmap_start
    (fs.sb.inode_start - fs.sb.inode_bmap_start) fs.sb.inode_bmap_start fs le_rfl
  rcases halloc : allocate_bmap fs fs.sb.inode_bmap_start fs.sb.inode_start with ⟨o, fsa⟩
  rcases o with _ | inum'
  · simp only [allocate_inode, halloc] at h
    exact Option.noConfusion (congrArg Prod.fst h)
  · simp only [allocate_inode, halloc] at h
    by_cases hge : inum' ≥ maxInodeNum fs.sb
    · rw [if_pos hge] at h
      exact Option.noConfusion (congrArg Prod.fst h)
    · rw [if_neg hge] at h
      obtain ⟨hinum, hfs⟩ : inum' = inum ∧
          ({ fsa with inodes := fun j => if j = inum' then dinodeInit t else fsa.inodes j } : FS)
            = fs1 := by
        constructor
        · have := congrArg Prod.fst h
          simpa using this
        · exact congrArg Prod.snd h
      subst hinum
      unfold allocate_bmap at halloc
      obtain ⟨c1, c2, c3, c4, c5, c6, c7, c8⟩ := ls inum' fsa halloc
      refine ⟨?_, by omega, ?_, ?_, ?_, ?_⟩
      · rw [← hfs]
        exact c1
      · unfold inodeBitSet
        exact c5
      · intro j hj
        rw [← hfs]
        show (if j = inum' then dinodeInit t else fsa.inodes j) = fs.inodes j
        rw [if_neg hj, c2]
      · rw [← hfs]
        show (if inum' = inum' then dinodeInit t else fsa.inodes inum') = dinodeInit t
        rw [if_pos rfl]
      · intro b k hb
        rw [← hfs]
        show fsa.disk b k = fs.disk b k
        refine c8 b k ?_
        simp only [BLOCK_SIZE] at c4 ⊢
        omega

/-! ## Resizing an inode -/

/-- Effect of one `set_bid` under `update_dinode` on an inode whose
indirect field is 0 (the only value any filesystem operation ever leaves
there): the addressed slot now maps to `bid`, everything else — other
inodes, other direct slots, other indirect slots, every nonzero block —
is untouched. -/
theorem updateDInodeSetBid_spec (fs : FS) (i idx bid : Nat)
    (hidx : idx < MAX_BLOCKS_PER_INODE) (hind : (fs.inodes i).indirect = 0) :
    (updateDInodeSetBid fs i idx bid).sb = fs.sb ∧
    (∀ j, j ≠ i → (updateDInodeSetBid fs i idx bid).inodes j = fs.inodes j) ∧
    ((updateDInodeSetBid fs i idx bid).inodes i).type_ = (fs.inodes i).type_ ∧
    ((updateDInodeSetBid fs i idx bid).inodes i).links_num = (fs.inodes i).links_num ∧
    ((updateDInodeSetBid fs i idx bid).inodes i).indirect = (fs.inodes i).indirect ∧
    ((updateDInodeSetBid fs i idx bid).inodes i).size = (fs.inodes i).size ∧
    (∀ a, a ≠ idx →
      ((updateDInodeSetBid fs i idx bid).inodes i).addresses a = (fs.inodes i).addresses a) ∧
    (∀ b, b ≠ 0 → (updateDInodeSetBid fs i idx bid).disk b = fs.disk b) ∧
    (∀ k, k + N_DIRECT ≠ idx → (updateDInodeSetBid fs i idx bid).disk 0 k = fs.disk 0 k) ∧
    getBid ((updateDInodeSetBid fs i idx bid).inodes i) (updateDInodeSetBid fs i idx bid).disk idx
      = bid := by
  by_cases hd : idx < N_DIRECT
  · refine ⟨rfl, ?_, ?_, ?_, ?_, ?_, ?_, ?_, ?_, ?_⟩
    · intro j hj
      simp [updateDInodeSetBid, setBid, hd, hj]
    · simp [updateDInodeSetBid, setBid, hd]
    · simp [updateDInodeSetBid, setBid, hd]
    · simp [updateDInodeSetBid, setBid, hd]
    · simp [updateDInodeSetBid, setBid, hd]
    · intro a ha
      simp [updateDInodeSetBid, setBid, hd, ha]
    · intro b _
      simp [updateDInodeSetBid, setBid, hd]
    · intro k _
      simp [updateDInodeSetBid, setBid, hd]
    · simp [updateDInodeSetBid, setBid, getBid, hd]
  · refine ⟨rfl, ?_, ?_, ?_, ?_, ?_, ?_, ?_, ?_, ?_⟩
    · intro j hj
      simp [updateDInodeSetBid, setBid, hd, hidx, hj]
    · simp [updateDInodeSetBid, setBid, hd, hidx]
    · simp [updateDInodeSetBid, setBid, hd, hidx]
    · simp [updateDInodeSetBid, setBid, hd, hidx]
    · simp [updateDInodeSetBid, setBid, hd, hidx]
    · intro a _
      simp [updateDInodeSetBid, setBid, hd, hidx]
    · intro b hb
      simp [updateDInodeSetBid, setBid, hd, hidx, updDisk, hind, hb]
    · intro k hk
      simp only [updateDInodeSetBid, setBid, if_neg hd, if_pos hidx, updDisk, hind]
      rw [if_pos trivial]
      show (if k = idx - N_DIRECT then bid else fs.disk 0 k) = fs.disk 0 k
      rw [if_neg (by omega)]
    · simp only [updateDInodeSetBid, setBid, getBid, if_neg hd, if_pos hidx]
      simp only [updDisk, hind]
      simp [hind]

/-- `get_bid` only depends on the direct slot, the indirect field and
the indirect block's slot. -/
theorem getBid_congr (d d' : DInode) (disk disk' : Disk) (idx : Nat)
    (haddr : idx < N_DIRECT → d'.addresses idx = d.addresses idx)
    (hindeq : d'.indirect = d.indirect)
    (hslot : N_DIRECT ≤ idx → idx < MAX_BLOCKS_PER_INODE →
      disk' d.indirect (idx - N_DIRECT) = disk d.indirect (idx - N_DIRECT)) :
    getBid d' disk' idx = getBid d disk idx := by
  unfold getBid
  by_cases h1 : idx < N_DIRECT
  · rw [if_pos h1, if_pos h1]
    exact haddr h1
  · rw [if_neg h1, if_neg h1]
    by_cases h2 : idx < MAX_BLOCKS_PER_INODE
    · rw [if_pos h2, if_pos h2, hindeq]
      exact hslot (by omega) h2
    · rw [if_neg h2, if_neg h2]

/-- Invariant of the allocation loop of `resize_inode`: on success, the
loop maps each inner index of `[baseIdx, baseIdx + count)` to a freshly
allocated data-region block (bits previously clear, now set, pairwise
distinct), changes nothing else of the inode or of any block that is
not the boot block, a data-bitmap block, or a freshly allocated data
block, and keeps already-set data-bitmap bits set. -/
theorem resizeLoop_spec (i newSize : Nat) : ∀ (count baseIdx : Nat) (fs fs' : FS),
    LayoutWF fs.sb →
    (fs.inodes i).indirect = 0 →
    baseIdx + count ≤ MAX_BLOCKS_PER_INODE →
    resizeLoop i newSize baseIdx count fs = .ok fs' →
    fs'.sb = fs.sb ∧
    (∀ j, j ≠ i → fs'.inodes j = fs.inodes j) ∧
    (fs'.inodes i).type_ = (fs.inodes i).type_ ∧
    (fs'.inodes i).links_num = (fs.inodes i).links_num ∧
    (fs'.inodes i).indirect = (fs.inodes i).indirect ∧
    (fs'.inodes i).size = (fs.inodes i).size ∧
    (∀ a, ¬(baseIdx ≤ a ∧ a < baseIdx + count) →
      (fs'.inodes i).addresses a = (fs.inodes i).addresses a) ∧
    (∀ k, ¬(baseIdx ≤ k + N_DIRECT ∧ k + N_DIRECT < baseIdx + count) →
      fs'.disk 0 k = fs.disk 0 k) ∧
    (∀ b k, b ≠ 0 → ¬(fs.sb.data_bmap_start ≤ b ∧ b < fs.sb.data_start) →
      (¬ dataRange fs.sb b ∨ dataBitSet fs b = true) → fs'.disk b k = fs.disk b k) ∧
    (∀ bid, dataRange fs.sb bid → dataBitSet fs bid = true → dataBitSet fs' bid = true) ∧
    (∀ idx, baseIdx ≤ idx → idx < baseIdx + count →
      dataRange fs.sb (getBid (fs'.inodes i) fs'.disk idx) ∧
      dataBitSet fs (getBid (fs'.inodes i) fs'.disk idx) = false ∧
      dataBitSet fs' (getBid (fs'.inodes i) fs'.disk idx) = true) ∧
    (∀ q r, baseIdx ≤ q → q < r → r < baseIdx + count →
      getBid (fs'.inodes i) fs'.disk q ≠ getBid (fs'.inodes i) fs'.disk r) := by
  intro count
  induction count with
  | zero =>
    intro baseIdx fs fs' _ _ _ hok
    simp only [resizeLoop] at hok
    obtain rfl : fs = fs' := by injection hok
    refine ⟨rfl, fun j _ => rfl, rfl, rfl, rfl, rfl, fun a _ => rfl, fun k _ => rfl,
      fun b k _ _ _ => rfl, fun bid _ h => h, fun idx h1 h2 => by omega, fun q r h1 h2 h3 => by omega⟩
  | succ count ih =>
    intro baseIdx fs fs' hwf hind hmax hok
    rcases halloc : allocate_data_block fs with ⟨o, fs1⟩
    rcases o with _ | bid
    · simp only [resizeLoop, halloc] at hok
      exact ResizeRes.noConfusion hok
    · simp only [resizeLoop, halloc] at hok
      obtain ⟨hwf1, hwf2, hwf3, hwf4, hwf5⟩ := hwf
      obtain ⟨a1, a2, a3, a4, a5, a6, a7⟩ := allocate_data_block_some fs bid fs1 halloc
      obtain ⟨hr1, hr2⟩ := a3
      have hbid0 : bid ≠ 0 := by omega
      set fs2 := clear_block fs1 bid with hfs2
      have h2sb : fs2.sb = fs.sb := a1
      have h2in : fs2.inodes = fs.inodes := a2
      have h2disk : ∀ b, b ≠ bid → fs2.disk b = fs1.disk b := by
        intro b hb
        show updDisk fs1.disk bid (fun _ => 0) b = fs1.disk b
        unfold updDisk
        rw [if_neg hb]
      have hcov : ∀ b', dataRange fs.sb b' →
          fs.sb.data_bmap_start + (b' - fs.sb.data_start) / (8 * BLOCK_SIZE)
            < fs.sb.data_start := by
        intro b' hb'
        obtain ⟨hb1, hb2⟩ := hb'
        simp only [BLOCK_SIZE] at hwf5 ⊢
        have : (b' - fs.sb.data_start) / (8 * 4096)
            < fs.sb.data_start - fs.sb.data_bmap_start := by
          by_contra hcon
          push_neg at hcon
          have h8 : (fs.sb.data_start - fs.sb.data_bmap_start) * (8 * 4096)
              ≤ (b' - fs.sb.data_start) / (8 * 4096) * (8 * 4096) :=
            Nat.mul_le_mul_right _ hcon
          have h9 : (b' - fs.sb.data_start) / (8 * 4096) * (8 * 4096) ≤ b' - fs.sb.data_start := by
            omega
          omega
        omega
      -- data-bitmap bits seen through fs2 and fs3 agree with fs1
      have hbit2 : ∀ b', dataRange fs.sb b' → dataBitSet fs2 b' = dataBitSet fs1 b' := by
        intro b' hb'
        unfold dataBitSet
        rw [h2sb, a1]
        rw [h2disk (fs.sb.data_bmap_start + (b' - fs.sb.data_start) / (8 * BLOCK_SIZE))
          (by have := hcov b' hb'; simp only [BLOCK_SIZE] at this ⊢; omega)]
      obtain ⟨u1, u2, u3, u4, u5, u6, u7, u8, u9, u10⟩ :=
        updateDInodeSetBid_spec fs2 i baseIdx bid (by omega)
          (by rw [h2in]; exact hind)
      set fs3 := updateDInodeSetBid fs2 i baseIdx bid with hfs3
      have h3sb : fs3.sb = fs.sb := by rw [u1, h2sb]
      have hbit3 : ∀ b', dataRange fs.sb b' → dataBitSet fs3 b' = dataBitSet fs1 b' := by
        intro b' hb'
        rw [← hbit2 b' hb']
        unfold dataBitSet
        rw [u1, h2sb]
        rw [u8 (fs.sb.data_bmap_start + (b' - fs.sb.data_start) / (8 * BLOCK_SIZE))
          (by simp only [BLOCK_SIZE]; omega)]
      have hmono3 : ∀ b', dataRange fs.sb b' → dataBitSet fs b' = true →
          dataBitSet fs3 b' = true := by
        intro b' hb' hset
        rw [hbit3 b' hb']
        have hne : b' ≠ bid := by
          intro hcon
          rw [hcon] at hset
          rw [hset] at a4
          exact Bool.noConfusion a4
        rw [a6 b' hb' hne]
        exact hset
      have hbit3bid : dataBitSet fs3 bid = true := by
        rw [hbit3 bid ⟨hr1, hr2⟩]
        exact a5
      have hbitpres3 : ∀ b', dataRange fs.sb b' → b' ≠ bid →
          dataBitSet fs3 b' = dataBitSet fs b' := by
        intro b' hb' hne
        rw [hbit3 b' hb', a6 b' hb' hne]
      have hframe3 : ∀ b k, b ≠ 0 → ¬(fs.sb.data_bmap_start ≤ b ∧ b < fs.sb.data_start) →
          (¬ dataRange fs.sb b ∨ dataBitSet fs b = true) → fs3.disk b k = fs.disk b k := by
        intro b k hb1 hb2 hb3
        have hbbid : b ≠ bid := by
          intro hcon
          subst hcon
          rcases hb3 with h | h
          · exact h ⟨hr1, hr2⟩
          · rw [h] at a4
            exact Bool.noConfusion a4
        rw [u8 b hb1, h2disk b hbbid]
        exact a7 b k (by omega)
      have hblk03 : ∀ k, k + N_DIRECT ≠ baseIdx → fs3.disk 0 k = fs.disk 0 k := by
        intro k hk
        rw [u9 k hk, h2disk 0 (fun hcon => hbid0 hcon.symm)]
        exact a7 0 k (by omega)
      have hind3 : (fs3.inodes i).indirect = 0 := by
        rw [u5, h2in]
        exact hind
      have h3in : ∀ j, j ≠ i → fs3.inodes j = fs.inodes j := by
        intro j hj
        rw [u2 j hj, h2in]
      have hwf3' : LayoutWF fs3.sb := by
        rw [h3sb]
        exact ⟨hwf1, hwf2, hwf3, hwf4, hwf5⟩
      obtain ⟨c1, c2, c3, c4, c5, c6, c7, c8, c9, c10, c11, c12⟩ :=
        ih (baseIdx + 1) fs3 fs' hwf3' hind3 (by omega) hok
      have hrange3 : ∀ b, dataRange fs3.sb b ↔ dataRange fs.sb b := by
        intro b
        rw [h3sb]
      -- `get_bid` of the index written this iteration survives the rest
      have hgetbase : getBid (fs'.inodes i) fs'.disk baseIdx = bid := by
        rw [← u10]
        refine getBid_congr _ _ _ _ baseIdx ?_ ?_ ?_
        · intro _
          exact c7 baseIdx (by omega)
        · rw [c5]
        · intro hge hlt
          rw [hind3]
          exact c8 (baseIdx - N_DIRECT) (by omega)
      refine ⟨by rw [c1, h3sb], ?_, ?_, ?_, ?_, ?_, ?_, ?_, ?_, ?_, ?_, ?_⟩
      · intro j hj
        rw [c2 j hj, h3in j hj]
      · rw [c3, u3]
        show (fs2.inodes i).type_ = (fs.inodes i).type_
        rw [h2in]
      · rw [c4, u4]
        show (fs2.inodes i).links_num = (fs.inodes i).links_num
        rw [h2in]
      · rw [c5, u5]
        show (fs2.inodes i).indirect = (fs.inodes i).indirect
        rw [h2in]
      · rw [c6, u6]
        show (fs2.inodes i).size = (fs.inodes i).size
        rw [h2in]
      · intro a ha
        rw [c7 a (by omega), u7 a (by omega)]
        show (fs2.inodes i).addresses a = (fs.inodes i).addresses a
        rw [h2in]
      · intro k hk
        rw [c8 k (by omega)]
        exact hblk03 k (by omega)
      · intro b k hb1 hb2 hb3
        have hb2' : ¬(fs3.sb.data_bmap_start ≤ b ∧ b < fs3.sb.data_start) := by
          rw [h3sb]
          exact hb2
        have hb3' : ¬ dataRange fs3.sb b ∨ dataBitSet fs3 b = true := by
          rcases hb3 with h | h
          · left
            rw [hrange3]
            exact h
          · rcases Classical.em (dataRange fs.sb b) with hr | hr
            · right
              exact hmono3 b hr h
            · left
              rw [hrange3]
              exact hr
        rw [c9 b k hb1 hb2' hb3']
        exact hframe3 b k hb1 hb2 hb3
      · intro bid' hbr hbs
        refine c10 bid' ((hrange3 bid').mpr hbr) (hmono3 bid' hbr hbs)
      · intro idx h1 h2
        rcases Nat.eq_or_lt_of_le h1 with he | hlt
        · rw [← he, hgetbase]
          refine ⟨⟨hr1, hr2⟩, a4, ?_⟩
          exact c10 bid ((hrange3 bid).mpr ⟨hr1, hr2⟩) hbit3bid
        · obtain ⟨d1, d2, d3⟩ := c11 idx (by omega) (by omega)
          refine ⟨(hrange3 _).mp d1, ?_, d3⟩
          by_contra hcon
          have hset : dataBitSet fs (getBid (fs'.inodes i) fs'.disk idx) = true := by
            cases hbs : dataBitSet fs (getBid (fs'.inodes i) fs'.disk idx)
            · exact absurd hbs hcon
            · rfl
          have := hmono3 _ ((hrange3 _).mp d1) hset
          rw [this] at d2
          exact Bool.noConfusion d2
      · intro q r h1 h2 h3
        rcases Nat.eq_or_lt_of_le h1 with he | hlt
        · rw [← he, hgetbase]
          obtain ⟨d1, d2, d3⟩ := c11 r (by omega) (by omega)
          intro hcon
          rw [← hcon] at d2
          rw [hbit3bid] at d2
          exact Bool.noConfusion d2
        · exact c12 q r (by omega) h2 (by omega)

/-- Effect of `set_inode_size`: only the size field of the one inode
changes. -/
theorem setInodeSize_spec (fs : FS) (i n : Nat) :
    (setInodeSize fs i n).sb = fs.sb ∧
    (setInodeSize fs i n).disk = fs.disk ∧
    (∀ j, j ≠ i → (setInodeSize fs i n).inodes j = fs.inodes j) ∧
    ((setInodeSize fs i n).inodes i).type_ = (fs.inodes i).type_ ∧
    ((setInodeSize fs i n).inodes i).links_num = (fs.inodes i).links_num ∧
    ((setInodeSize fs i n).inodes i).indirect = (fs.inodes i).indirect ∧
    ((setInodeSize fs i n).inodes i).addresses = (fs.inodes i).addresses ∧
    ((setInodeSize fs i n).inodes i).size = n := by
  refine ⟨rfl, rfl, ?_, ?_, ?_, ?_, ?_, ?_⟩
  · intro j hj
    simp [setInodeSize, updateDInode, hj]
  · simp [setInodeSize, updateDInode]
  · simp [setInodeSize, updateDInode]
  · simp [setInodeSize, updateDInode]
  · simp [setInodeSize, updateDInode]
  · simp [setInodeSize, updateDInode]

/-- Success path of `resize_inode`: afterwards the size field equals the
requested size, nothing else of the inode graph or of untouched blocks
changed, the previously mapped indices keep their block ids, and every
index of `[ceil(old/block), ceil(new/block))` maps to a fresh data-region
block (bits previously clear, now set, pairwise distinct). -/
theorem resize_inode_ok (fs : FS) (i newSize : Nat) (fs' : FS)
    (hwf : LayoutWF fs.sb)
    (hind : (fs.inodes i).indirect = 0)
    (hok : resize_inode fs i newSize = .ok fs') :
    fs'.sb = fs.sb ∧
    (∀ j, j ≠ i → fs'.inodes j = fs.inodes j) ∧
    (fs'.inodes i).type_ = (fs.inodes i).type_ ∧
    (fs'.inodes i).links_num = (fs.inodes i).links_num ∧
    (fs'.inodes i).indirect = (fs.inodes i).indirect ∧
    (fs'.inodes i).size = newSize ∧
    (∀ idx, idx < ceilB (fs.inodes i).size →
        getBid (fs'.inodes i) fs'.disk idx = getBid (fs.inodes i) fs.disk idx) ∧
    (∀ idx, ceilB (fs.inodes i).size ≤ idx → idx < ceilB newSize →
        dataRange fs.sb (getBid (fs'.inodes i) fs'.disk idx) ∧
        dataBitSet fs (getBid (fs'.inodes i) fs'.disk idx) = false ∧
        dataBitSet fs' (getBid (fs'.inodes i) fs'.disk idx) = true) ∧
    (∀ q r, ceilB (fs.inodes i).size ≤ q → q < r → r < ceilB newSize →
        getBid (fs'.inodes i) fs'.disk q ≠ getBid (fs'.inodes i) fs'.disk r) ∧
    (∀ b k, b ≠ 0 → ¬(fs.sb.data_bmap_start ≤ b ∧ b < fs.sb.data_start) →
        (¬ dataRange fs.sb b ∨ dataBitSet fs b = true) → fs'.disk b k = fs.disk b k) ∧
    (∀ bid, dataRange fs.sb bid → dataBitSet fs bid = true → dataBitSet fs' bid = true) := by
  unfold resize_inode at hok
  by_cases hcap : newSize > CAPACITY_PER_INODE
  · rw [if_pos hcap] at hok
    exact ResizeRes.noConfusion hok
  rw [if_neg hcap] at hok
  simp only at hok
  by_cases hgt : newSize > (fs.inodes i).size
  · rw [if_pos hgt] at hok
    by_cases hslack : (fs.inodes i).size % BLOCK_SIZE ≠ 0 ∧
        ¬ (newSize - (fs.inodes i).size > BLOCK_SIZE - (fs.inodes i).size % BLOCK_SIZE)
    · -- fits in the tail block's slack: only the size changes
      rw [if_pos hslack] at hok
      obtain rfl : setInodeSize fs i newSize = fs' := by injection hok
      obtain ⟨s1, s2, s3, s4, s5, s6, s7, s8⟩ := setInodeSize_spec fs i newSize
      have hceil : ceilB newSize ≤ ceilB (fs.inodes i).size := by
        unfold ceilB
        simp only [BLOCK_SIZE] at hslack ⊢
        omega
      have hget : ∀ idx, getBid ((setInodeSize fs i newSize).inodes i)
          (setInodeSize fs i newSize).disk idx = getBid (fs.inodes i) fs.disk idx := by
        intro idx
        refine getBid_congr _ _ _ _ idx ?_ ?_ ?_
        · intro _
          rw [s7]
        · exact s6
        · intro _ _
          rw [s2]
      refine ⟨s1, s3, s4, s5, s6, s8, fun idx _ => hget idx, ?_, ?_, ?_, ?_⟩
      · intro idx h1 h2
        omega
      · intro q r h1 h2 h3
        omega
      · intro b k _ _ _
        rw [s2]
      · intro bid _ h
        exact h
    · rw [if_neg hslack] at hok
      -- the allocating path
      set oldSize := (fs.inodes i).size with holdsz
      set increment' := if oldSize % BLOCK_SIZE ≠ 0
        then (newSize - oldSize) - (BLOCK_SIZE - oldSize % BLOCK_SIZE)
        else newSize - oldSize with hincr
      set baseIdx := (oldSize + BLOCK_SIZE - 1) / BLOCK_SIZE with hbase
      set neededBlocks := (increment' + BLOCK_SIZE - 1) / BLOCK_SIZE with hneed
      have hsum : baseIdx + neededBlocks = ceilB newSize := by
        unfold ceilB
        rw [hbase, hneed, hincr]
        simp only [BLOCK_SIZE]
        by_cases hoff : oldSize % 4096 ≠ 0
        · rw [if_pos (by simpa using hoff)]
          simp only [BLOCK_SIZE] at hslack
          omega
        · rw [if_neg (by simpa using hoff)]
          omega
      have hmax : baseIdx + neededBlocks ≤ MAX_BLOCKS_PER_INODE := by
        rw [hsum]
        unfold ceilB
        simp only [MAX_BLOCKS_PER_INODE, N_DIRECT, N_INDIRECT, CAPACITY_PER_INODE,
          BLOCK_SIZE] at hcap ⊢
        omega
      rcases hloop : resizeLoop i newSize baseIdx neededBlocks fs with fsl | ⟨fsl, e⟩ | fsl
      · rw [hloop] at hok
        obtain rfl : setInodeSize fsl i newSize = fs' := by injection hok
        obtain ⟨r1, r2, r3, r4, r5, r6, r7, r8, r9, r10, r11, r12⟩ :=
          resizeLoop_spec i newSize neededBlocks baseIdx fs fsl hwf hind hmax hloop
        obtain ⟨s1, s2, s3, s4, s5, s6, s7, s8⟩ := setInodeSize_spec fsl i newSize
        have hceilold : ceilB oldSize = baseIdx := by
          unfold ceilB
          rw [hbase]
        have hget : ∀ idx, getBid ((setInodeSize fsl i newSize).inodes i)
            (setInodeSize fsl i newSize).disk idx = getBid (fsl.inodes i) fsl.disk idx := by
          intro idx
          refine getBid_congr _ _ _ _ idx ?_ ?_ ?_
          · intro _
            rw [s7]
          · exact s6
          · intro _ _
            rw [s2]
        have hgetold : ∀ idx, idx < baseIdx →
            getBid (fsl.inodes i) fsl.disk idx = getBid (fs.inodes i) fs.disk idx := by
          intro idx hidx
          refine getBid_congr _ _ _ _ idx ?_ ?_ ?_
          · intro _
            exact r7 idx (by omega)
          · exact r5
          · intro hge hlt
            rw [hind]
            exact r8 (idx - N_DIRECT) (by omega)
        have hbit : ∀ bid', dataBitSet (setInodeSize fsl i newSize) bid'
            = dataBitSet fsl bid' := by
          intro bid'
          unfold dataBitSet
          rw [s1, s2]
        refine ⟨by rw [s1, r1], ?_, ?_, ?_, ?_, s8, ?_, ?_, ?_, ?_, ?_⟩
        · intro j hj
          rw [s3 j hj, r2 j hj]
        · rw [s4, r3]
        · rw [s5, r4]
        · rw [s6, r5]
        · intro idx hidx
          rw [hget idx, hgetold idx (by omega)]
        · intro idx h1 h2
          rw [hget idx]
          obtain ⟨d1, d2, d3⟩ := r11 idx (by omega) (by omega)
          exact ⟨d1, d2, by rw [hbit]; exact d3⟩
        · intro q r h1 h2 h3
          rw [hget q, hget r]
          exact r12 q r (by omega) h2 (by omega)
        · intro b k hb1 hb2 hb3
          rw [s2]
          exact r9 b k hb1 hb2 hb3
        · intro bid hbr hbs
          rw [hbit]
          exact r10 bid hbr hbs
      · rw [hloop] at hok
        exact ResizeRes.noConfusion hok
      · rw [hloop] at hok
        exact ResizeRes.noConfusion hok
  · rw [if_neg hgt] at hok
    by_cases hlt : newSize < (fs.inodes i).size
    · rw [if_pos hlt] at hok
      exact ResizeRes.noConfusion hok
    · rw [if_neg hlt] at hok
      obtain rfl : fs = fs' := by injection hok
      have hsz : (fs.inodes i).size = newSize := by omega
      refine ⟨rfl, fun j _ => rfl, rfl, rfl, rfl, hsz, fun idx _ => rfl, ?_, ?_,
        fun b k _ _ _ => rfl, fun bid _ h => h⟩
      · intro idx h1 h2
        rw [hsz] at h1
        omega
      · intro q r h1 h2 h3
        rw [hsz] at h1
        omega

/-! ## Claim C2 -/

/-- C2: for an inode with a clean indirect field whose mapped blocks lie
in the data region (every filesystem-created inode), growing it with
`resize_inode` to `s > size` returns `Ok` only with `size = s` and with
every inner index of `[0, ceil(s / BLOCK_SIZE))` mapped to a block id
inside `[data_start, data_start + data_blocks)`. -/
theorem claim_C2 (fs : FS) (i s : Nat)
    (hwf : LayoutWF fs.sb)
    (hind : (fs.inodes i).indirect = 0)
    (hgt : (fs.inodes i).size < s)
    (hold : ∀ idx, idx < ceilB (fs.inodes i).size →
        dataRange fs.sb (getBid (fs.inodes i) fs.disk idx))
    (hok : (resize_inode fs i s).isOkR = true) :
    ((resize_inode fs i s).stateOf.inodes i).size = s ∧
    ∀ idx, idx < ceilB s →
      dataRange fs.sb
        (getBid ((resize_inode fs i s).stateOf.inodes i)
          (resize_inode fs i s).stateOf.disk idx) := by
  rcases hres : resize_inode fs i s with fs' | ⟨f, e⟩ | f
  · obtain ⟨c1, c2, c3, c4, c5, c6, c7, c8, c9, c10, c11⟩ :=
      resize_inode_ok fs i s fs' hwf hind hres
    simp only [hres, ResizeRes.stateOf]
    refine ⟨c6, ?_⟩
    intro idx hidx
    by_cases hi2 : idx < ceilB (fs.inodes i).size
    · rw [c7 idx hi2]
      exact hold idx hi2
    · exact (c8 idx (by omega) hidx).1
  · rw [hres] at hok
    simp [ResizeRes.isOkR] at hok
  · rw [hres] at hok
    simp [ResizeRes.isOkR] at hok

/-- Witness for C2: growing the empty root directory of the concrete
filesystem to 40 bytes. -/
theorem claim_C2_witness :
    (LayoutWF fsEx.sb ∧ (fsEx.inodes 0).indirect = 0 ∧ (fsEx.inodes 0).size < 40 ∧
      (∀ idx, idx < ceilB (fsEx.inodes 0).size →
        dataRange fsEx.sb (getBid (fsEx.inodes 0) fsEx.disk idx)) ∧
      (resize_inode fsEx 0 40).isOkR = true) ∧
    (((resize_inode fsEx 0 40).stateOf.inodes 0).size = 40 ∧
      ∀ idx, idx < ceilB 40 →
        dataRange fsEx.sb
          (getBid ((resize_inode fsEx 0 40).stateOf.inodes 0)
            (resize_inode fsEx 0 40).stateOf.disk idx)) :=
  ⟨⟨by decide, by decide, by decide, by decide, by decide⟩,
    claim_C2 fsEx 0 40 (by decide) (by decide) (by decide) (by decide) (by decide)⟩

/-! ## Claim C3 -/

/-- C3 fails on the code: growing inode 1 of `fsC3` from 28 blocks
(exactly the direct capacity) to 29 blocks succeeds, yet no indirect
index block is ever allocated — the inode's `indirect` field stays 0, so
`set_bid` writes the new mapping into slot 0 of block 0 (the boot
block), which held 0 before; the data bitmap shows exactly one new bit
(byte 3 goes `0x0f → 0x1f` for the one data block, bytes 2 and 4
unchanged), not the two allocations (data block plus index block) the
claim requires. -/
theorem claim_C3_code_divergence :
    (resize_inode fsC3 1 (29 * BLOCK_SIZE)).isOkR = true ∧
    ((resize_inode fsC3 1 (29 * BLOCK_SIZE)).stateOf.inodes 1).indirect = 0 ∧
    fsC3.disk 0 0 = 0 ∧
    (resize_inode fsC3 1 (29 * BLOCK_SIZE)).stateOf.disk 0 0 = 33 ∧
    getBid ((resize_inode fsC3 1 (29 * BLOCK_SIZE)).stateOf.inodes 1)
      (resize_inode fsC3 1 (29 * BLOCK_SIZE)).stateOf.disk 28 = 33 ∧
    fsC3.disk 4 3 = 15 ∧
    (resize_inode fsC3 1 (29 * BLOCK_SIZE)).stateOf.disk 4 3 = 31 ∧
    (resize_inode fsC3 1 (29 * BLOCK_SIZE)).stateOf.disk 4 2 = 255 ∧
    (resize_inode fsC3 1 (29 * BLOCK_SIZE)).stateOf.disk 4 4 = 0 := by
  decide

/-! ## Directory-scan facts (`look_up` and the entry layout) -/

/-- Reading a list of known length back element-wise over `List.range`
reproduces the list. -/
theorem range_map_getD (l : List Nat) (m : Nat) (hl : l.length = m) :
    (List.range m).map (fun j => l.getD j 0) = l := by
  apply List.ext_getElem
  · simp [hl]
  · intro i h1 h2
    simp only [List.getElem_map, List.getElem_range]
    rw [List.getD_eq_getElem l 0 h2]

/-- `dropWhile` is idempotent. -/
theorem dropWhile_idem (p : Nat → Bool) (l : List Nat) :
    (l.dropWhile p).dropWhile p = l.dropWhile p := by
  induction l with
  | nil => rfl
  | cons a t ih =>
    by_cases h : p a = true
    · simp [List.dropWhile_cons, h, ih]
    · simp [List.dropWhile_cons, h]

/-- The scan loop of `look_up` returns `none` exactly when no scanned
entry's NUL-trimmed name equals the target. -/
theorem lookUpLoop_none_iff (d : DInode) (disk : Disk) (name : List Nat) :
    ∀ (nn i0 : Nat),
      (lookUpLoop d disk name nn i0 = none ↔
        ∀ i, i0 ≤ i → i < i0 + nn → entryNameAt d disk i ≠ name) := by
  intro nn
  induction nn with
  | zero =>
    intro i0
    simp only [lookUpLoop]
    constructor
    · intro _ i h1 h2
      exact absurd h2 (by omega)
    · intro _
      trivial
  | succ nn ih =>
    intro i0
    simp only [lookUpLoop]
    by_cases hm : dirEntName (entryName24
        (read_data d disk (DIR_ENTRY_SIZE * i0) DIR_ENTRY_SIZE (fun _ => 0)).2) = name
    · rw [if_pos hm]
      constructor
      · intro h
        exact Option.noConfusion h
      · intro h
        exact absurd hm (h i0 le_rfl (by omega))
    · rw [if_neg hm]
      rw [ih (i0 + 1)]
      constructor
      · intro h i h1 h2
        rcases Nat.eq_or_lt_of_le h1 with rfl | hlt
        · exact hm
        · exact h i hlt (by omega)
      · intro h i h1 h2
        exact h i (by omega) (by omega)

/-- `look_up` returns `none` exactly when no directory entry's
NUL-trimmed name equals the target. -/
theorem look_up_none_iff (fs : FS) (d : DInode) (name : List Nat) :
    look_up fs d name = none ↔
      ∀ i, i < d.size / DIR_ENTRY_SIZE → entryNameAt d fs.disk i ≠ name := by
  unfold look_up
  rw [lookUpLoop_none_iff]
  constructor
  · intro h i h2
    exact h i (Nat.zero_le i) (by omega)
  · intro h i _ h2
    exact h i (by omega)

/-- A stored entry name never exceeds the 24-byte name array. -/
theorem entryNameAt_length_le (d : DInode) (disk : Disk) (i : Nat) :
    (entryNameAt d disk i).length ≤ DIR_NAME_SIZE := by
  unfold entryNameAt dirEntName
  calc (List.takeWhile (fun b => decide (b ≠ 0)) (entryName24
        (read_data d disk (DIR_ENTRY_SIZE * i) DIR_ENTRY_SIZE (fun _ => 0)).2)).length
      ≤ (entryName24
        (read_data d disk (DIR_ENTRY_SIZE * i) DIR_ENTRY_SIZE (fun _ => 0)).2).length :=
        (List.takeWhile_sublist _).length_le
    _ = DIR_NAME_SIZE := by simp [entryName24]

/-- Looking up a name longer than the 24-byte name array always fails:
no stored entry can hold it. -/
theorem look_up_long_none (fs : FS) (d : DInode) (name : List Nat)
    (h : DIR_NAME_SIZE < name.length) : look_up fs d name = none := by
  rw [look_up_none_iff]
  intro i _ he
  have hle := entryNameAt_length_le d fs.disk i
  rw [he] at hle
  omega

/-- Reduction of `create_inode` on the full success path: parent is a
directory, the name is absent, inode allocation, the resize, the
directory-size assert, the entry construction and the 32-byte write all
succeed. -/
theorem create_inode_ok_eq (fs : FS) (dirI : Nat) (n : List Nat) (t : InodeType)
    (ninum s0 : Nat) (fs1 fs2 : FS) (e : DirEnt)
    (htype : (fs.inodes dirI).type_ = InodeType.Directory)
    (hlu : look_up fs (fs.inodes dirI) n = none)
    (halloc : allocate_inode fs t = (some ninum, fs1))
    (hs0 : (fs1.inodes dirI).size = s0)
    (hres : resize_inode fs1 dirI (s0 + DIR_ENTRY_SIZE) = ResizeRes.ok fs2)
    (hsz : (fs2.inodes dirI).size = s0 + DIR_ENTRY_SIZE)
    (hde : dirEntNew n ninum = some e)
    (hw : (write_data (fs2.inodes dirI) fs2.disk s0 DIR_ENTRY_SIZE (entrySerialize e)).1
        = DIR_ENTRY_SIZE) :
    create_inode fs dirI n t =
      CreateRes.ok
        (updateDInode
          { fs2 with disk := (write_data (fs2.inodes dirI) fs2.disk s0 DIR_ENTRY_SIZE
              (entrySerialize e)).2 }
          ninum (fun d => { d with links_num := d.links_num + 1 }))
        ninum := by
  subst hs0
  simp only [create_inode, hlu, halloc, hres, hde]
  rw [if_neg (fun hc => hc htype), if_neg (fun hc => hc hsz), if_neg (fun hc => hc hw)]

/-! ## Claim C4 -/

/-- C4: for a well-formed directory (entry-aligned size, clean indirect
field, mapped blocks inside the data region with their bitmap bits set
and pairwise distinct — all invariants of filesystem-created
directories), a NUL-free name not present in it, and any inode type,
after a successful `create_inode` a second identical call returns
`AlreadyExist(name, type)` carrying the state of the first call
unchanged (in particular the directory's size is unchanged). -/
theorem claim_C4 (fs : FS) (dirI : Nat) (n : List Nat) (t : InodeType)
    (h1 : (fs.inodes dirI).type_ = InodeType.Directory)
    (h2 : (fs.inodes dirI).size % DIR_ENTRY_SIZE = 0)
    (h3 : (fs.inodes dirI).indirect = 0)
    (hwf : LayoutWF fs.sb)
    (h5 : ∀ idx, idx < ceilB (fs.inodes dirI).size →
        dataRange fs.sb (getBid (fs.inodes dirI) fs.disk idx))
    (h6 : ∀ idx, idx < ceilB (fs.inodes dirI).size →
        dataBitSet fs (getBid (fs.inodes dirI) fs.disk idx) = true)
    (h7 : ∀ r, r < ceilB (fs.inodes dirI).size → ∀ q, q < r →
        getBid (fs.inodes dirI) fs.disk q ≠ getBid (fs.inodes dirI) fs.disk r)
    (h8 : look_up fs (fs.inodes dirI) n = none)
    (h9 : ∀ b ∈ n, b ≠ 0)
    (h10 : inodeBitSet fs dirI = true)
    (hok : (create_inode fs dirI n t).isOkC = true) :
    create_inode ((create_inode fs dirI n t).stateOf) dirI n t
      = CreateRes.err ((create_inode fs dirI n t).stateOf) (AllocErr.AlreadyExist n t) := by
  have htype : ¬ (fs.inodes dirI).type_ ≠ InodeType.Directory := fun hc => hc h1
  obtain ⟨wf1, wf2, wf3, wf4, wf5⟩ := hwf
  -- the allocation step
  rcases halloc : allocate_inode fs t with ⟨o, fs1⟩
  rcases o with _ | ninum
  · have hcr : create_inode fs dirI n t = CreateRes.err fs1 AllocErr.InodeExhausted := by
      simp only [create_inode, h8, halloc]
      rw [if_neg htype]
    rw [hcr] at hok
    simp [CreateRes.isOkC] at hok
  obtain ⟨a1, a2, a3, a4, a5, a6⟩ := allocate_inode_some fs t ninum fs1 halloc
  have hne : ninum ≠ dirI := by
    intro h
    rw [h, h10] at a3
    exact Bool.noConfusion a3
  have hne' : dirI ≠ ninum := Ne.symm hne
  have hd1 : fs1.inodes dirI = fs.inodes dirI := a4 dirI hne'
  have hs1 : (fs1.inodes dirI).size = (fs.inodes dirI).size := by rw [hd1]
  -- inode-bitmap writes touch neither the data bitmap nor any data or index block
  have hbm1 : ∀ bid, dataBitSet fs1 bid = dataBitSet fs bid := by
    intro bid
    unfold dataBitSet
    rw [a1]
    have hblk : fs1.disk (fs.sb.data_bmap_start + (bid - fs.sb.data_start) / (8 * BLOCK_SIZE))
        = fs.disk (fs.sb.data_bmap_start + (bid - fs.sb.data_start) / (8 * BLOCK_SIZE)) := by
      funext k
      refine a6 _ k (Or.inr ?_)
      simp only [BLOCK_SIZE]
      omega
    rw [hblk]
  have hgb1 : ∀ idx, getBid (fs1.inodes dirI) fs1.disk idx
      = getBid (fs.inodes dirI) fs.disk idx := by
    intro idx
    refine getBid_congr _ _ _ _ idx ?_ ?_ ?_
    · intro _
      rw [hd1]
    · rw [hd1]
    · intro _ _
      rw [h3]
      exact a6 0 _ (Or.inl (by omega))
  -- the resize step
  rcases hres : resize_inode fs1 dirI ((fs.inodes dirI).size + DIR_ENTRY_SIZE)
      with fs2 | ⟨fs2, ee⟩ | fs2
  rotate_left
  · -- the resize failed with an allocation error
    have hcr : create_inode fs dirI n t = CreateRes.err fs2 ee := by
      simp only [create_inode, h8, halloc, hd1, hres]
      rw [if_neg htype]
    rw [hcr] at hok
    simp [CreateRes.isOkC] at hok
  · -- the resize panicked
    have hcr : create_inode fs dirI n t = CreateRes.panicked fs2 := by
      simp only [create_inode, h8, halloc, hd1, hres]
      rw [if_neg htype]
    rw [hcr] at hok
    simp [CreateRes.isOkC] at hok
  -- the resize succeeded
  have hwf1 : LayoutWF fs1.sb := by
    rw [a1]
    exact ⟨wf1, wf2, wf3, wf4, wf5⟩
  have hind1 : (fs1.inodes dirI).indirect = 0 := by rw [hd1]; exact h3
  obtain ⟨r1, r2, r3, r4, r5, r6, r7, r8, r9, r10, r11⟩ :=
    resize_inode_ok fs1 dirI ((fs.inodes dirI).size + DIR_ENTRY_SIZE) fs2 hwf1 hind1 hres
  rw [hs1] at r7 r8 r9
  rw [a1] at r8 r11
  have hsz2 : (fs2.inodes dirI).size = (fs.inodes dirI).size + DIR_ENTRY_SIZE := r6
  -- the entry construction
  rcases hde : dirEntNew n ninum with _ | e
  · have hcr : create_inode fs dirI n t = CreateRes.panicked fs2 := by
      simp only [create_inode, h8, halloc, hd1, hres, hde]
      rw [if_neg htype, if_neg (fun hc => hc hsz2)]
    rw [hcr] at hok
    simp [CreateRes.isOkC] at hok
  obtain ⟨hlen, hee⟩ : n.length ≤ DIR_NAME_SIZE ∧
      e = { inode_num := ninum, name24 := n ++ List.replicate (DIR_NAME_SIZE - n.length) 0 } := by
    by_cases hl : n.length ≤ DIR_NAME_SIZE
    · unfold dirEntNew at hde
      rw [if_pos hl] at hde
      exact ⟨hl, (Option.some.inj hde).symm⟩
    · unfold dirEntNew at hde
      rw [if_neg hl] at hde
      exact Option.noConfusion hde
  -- the directory's mapped blocks after the resize: in range, bits set, distinct
  have hrange2 : ∀ idx, idx < ceilB ((fs.inodes dirI).size + DIR_ENTRY_SIZE) →
      dataRange fs.sb (getBid (fs2.inodes dirI) fs2.disk idx) := by
    intro idx hidx
    by_cases hlt : idx < ceilB (fs.inodes dirI).size
    · rw [r7 idx hlt, hgb1 idx]
      exact h5 idx hlt
    · exact (r8 idx (by omega) hidx).1
  have hbit2 : ∀ idx, idx < ceilB ((fs.inodes dirI).size + DIR_ENTRY_SIZE) →
      dataBitSet fs2 (getBid (fs2.inodes dirI) fs2.disk idx) = true := by
    intro idx hidx
    by_cases hlt : idx < ceilB (fs.inodes dirI).size
    · rw [r7 idx hlt, hgb1 idx]
      refine r11 _ (h5 idx hlt) ?_
      rw [hbm1]
      exact h6 idx hlt
    · exact (r8 idx (by omega) hidx).2.2
  have hinj2 : ∀ q r, q < r → r < ceilB ((fs.inodes dirI).size + DIR_ENTRY_SIZE) →
      getBid (fs2.inodes dirI) fs2.disk q ≠ getBid (fs2.inodes dirI) fs2.disk r := by
    intro q r hqr hr
    by_cases hrold : r < ceilB (fs.inodes dirI).size
    · rw [r7 q (by omega), r7 r hrold, hgb1 q, hgb1 r]
      exact h7 r hrold q hqr
    · by_cases hqold : q < ceilB (fs.inodes dirI).size
      · intro hEq
        have hqset : dataBitSet fs1 (getBid (fs2.inodes dirI) fs2.disk q) = true := by
          rw [r7 q hqold, hgb1 q, hbm1]
          exact h6 q hqold
        have hrclear : dataBitSet fs1 (getBid (fs2.inodes dirI) fs2.disk r) = false :=
          (r8 r (by omega) hr).2.1
        rw [hEq, hrclear] at hqset
        exact Bool.noConfusion hqset
      · exact r9 q r (by omega) hqr hr
  -- the 32-byte entry write
  have hind2 : (fs2.inodes dirI).indirect = 0 := by rw [r5, hind1]
  have hindw : ∀ idx, idx * BLOCK_SIZE <
      (fs.inodes dirI).size +
        min DIR_ENTRY_SIZE ((fs2.inodes dirI).size - (fs.inodes dirI).size) →
      getBid (fs2.inodes dirI) fs2.disk idx ≠ (fs2.inodes dirI).indirect := by
    intro idx hlt
    have hidx : idx < ceilB ((fs.inodes dirI).size + DIR_ENTRY_SIZE) := by
      rw [hsz2] at hlt
      unfold ceilB
      simp only [BLOCK_SIZE, DIR_ENTRY_SIZE] at hlt ⊢
      omega
    have hr := hrange2 idx hidx
    rw [hind2]
    unfold dataRange at hr
    omega
  obtain ⟨w1, w2, w3, w4, w5⟩ := write_data_spec (fs2.inodes dirI) fs2.disk
    (fs.inodes dirI).size DIR_ENTRY_SIZE (entrySerialize e) (by rw [hsz2]; omega) hindw
  have hwcnt : (write_data (fs2.inodes dirI) fs2.disk (fs.inodes dirI).size DIR_ENTRY_SIZE
      (entrySerialize e)).1 = DIR_ENTRY_SIZE := by
    rw [w1, hsz2]
    simp only [DIR_ENTRY_SIZE]
    omega
  have hcr := create_inode_ok_eq fs dirI n t ninum (fs.inodes dirI).size fs1 fs2 e
    h1 h8 halloc hs1 hres hsz2 hde hwcnt
  set W := write_data (fs2.inodes dirI) fs2.disk (fs.inodes dirI).size DIR_ENTRY_SIZE
    (entrySerialize e) with hWdef
  set fs4 := updateDInode { fs2 with disk := W.2 } ninum
    (fun d => { d with links_num := d.links_num + 1 }) with hfs4
  -- the state after the first call, seen from the directory
  have hd4 : fs4.inodes dirI = fs2.inodes dirI := by
    simp [hfs4, updateDInode, hne']
  have hdisk4 : fs4.disk = W.2 := by
    simp [hfs4, updateDInode]
  have htype4 : (fs4.inodes dirI).type_ = InodeType.Directory := by
    rw [hd4, r3, hd1, h1]
  have hsz4 : (fs4.inodes dirI).size = (fs.inodes dirI).size + DIR_ENTRY_SIZE := by
    rw [hd4, hsz2]
  have hgb4 : ∀ idx, getBid (fs4.inodes dirI) fs4.disk idx
      = getBid (fs2.inodes dirI) fs2.disk idx := by
    intro idx
    rw [hd4, hdisk4]
    exact w3 idx
  -- every byte of the appended entry reads back as written
  have hbyte : ∀ j, j < DIR_ENTRY_SIZE →
      dataByte (fs4.inodes dirI) fs4.disk ((fs.inodes dirI).size + j)
        = entrySerialize e j := by
    intro j hj
    unfold dataByte
    rw [hgb4, hdisk4]
    have hc := w5
      (fun q r hqr hub => hinj2 q r hqr (by
        rw [hsz2] at hub
        unfold ceilB
        simp only [BLOCK_SIZE, DIR_ENTRY_SIZE] at hub ⊢
        omega))
      ((fs.inodes dirI).size + j) (by omega)
      (by
        rw [hwcnt]
        simp only [DIR_ENTRY_SIZE] at hj ⊢
        omega)
    rw [hc, show (fs.inodes dirI).size + j - (fs.inodes dirI).size = j from by omega]
  -- the appended entry's NUL-trimmed name is the created name
  have hdvd : DIR_ENTRY_SIZE ∣ (fs.inodes dirI).size := Nat.dvd_of_mod_eq_zero h2
  have hoff0 : DIR_ENTRY_SIZE * ((fs.inodes dirI).size / DIR_ENTRY_SIZE)
      = (fs.inodes dirI).size := Nat.mul_div_cancel' hdvd
  obtain ⟨rd1, rd2, rd3, rd4⟩ := read_data_spec (fs4.inodes dirI) fs4.disk
    (DIR_ENTRY_SIZE * ((fs.inodes dirI).size / DIR_ENTRY_SIZE)) DIR_ENTRY_SIZE (fun _ => 0)
    (by rw [hoff0, hsz4]; omega)
  have hrdc : (read_data (fs4.inodes dirI) fs4.disk
      (DIR_ENTRY_SIZE * ((fs.inodes dirI).size / DIR_ENTRY_SIZE)) DIR_ENTRY_SIZE
      (fun _ => 0)).1 = DIR_ENTRY_SIZE := by
    rw [rd1, hoff0, hsz4]
    simp only [DIR_ENTRY_SIZE]
    omega
  have hlen24 : e.name24.length = DIR_NAME_SIZE := by
    rw [hee]
    simp only [List.length_append, List.length_replicate]
    simp only [DIR_NAME_SIZE] at hlen ⊢
    omega
  have hname : entryNameAt (fs4.inodes dirI) fs4.disk ((fs.inodes dirI).size / DIR_ENTRY_SIZE)
      = n := by
    unfold entryNameAt
    have h24 : entryName24 (read_data (fs4.inodes dirI) fs4.disk
        (DIR_ENTRY_SIZE * ((fs.inodes dirI).size / DIR_ENTRY_SIZE)) DIR_ENTRY_SIZE
        (fun _ => 0)).2 = e.name24 := by
      unfold entryName24
      have hmap : ∀ j ∈ List.range DIR_NAME_SIZE,
          (read_data (fs4.inodes dirI) fs4.disk
            (DIR_ENTRY_SIZE * ((fs.inodes dirI).size / DIR_ENTRY_SIZE)) DIR_ENTRY_SIZE
            (fun _ => 0)).2 (8 + j) = e.name24.getD j 0 := by
        intro j hj
        rw [List.mem_range] at hj
        rw [rd3 (8 + j) (by
          rw [hrdc]
          simp only [DIR_ENTRY_SIZE, DIR_NAME_SIZE] at hj ⊢
          omega)]
        rw [show DIR_ENTRY_SIZE * ((fs.inodes dirI).size / DIR_ENTRY_SIZE) + (8 + j)
            = (fs.inodes dirI).size + (8 + j) from by rw [hoff0]]
        rw [hbyte (8 + j) (by
          simp only [DIR_ENTRY_SIZE, DIR_NAME_SIZE] at hj ⊢
          omega)]
        unfold entrySerialize
        rw [if_neg (by omega), show 8 + j - 8 = j from by omega]
      exact (List.map_congr_left hmap).trans (range_map_getD e.name24 DIR_NAME_SIZE hlen24)
    rw [h24, hee]
    exact dirEntName_padded (DIR_NAME_SIZE - n.length) n h9
  -- the second call finds the entry
  have hlu4 : look_up fs4 (fs4.inodes dirI) n ≠ none := by
    intro hlu0
    rw [look_up_none_iff] at hlu0
    refine hlu0 ((fs.inodes dirI).size / DIR_ENTRY_SIZE) ?_ hname
    rw [hsz4]
    simp only [DIR_ENTRY_SIZE]
    omega
  rw [hcr]
  simp only [CreateRes.stateOf]
  rcases hlu : look_up fs4 (fs4.inodes dirI) n with _ | v
  · exact absurd hlu hlu4
  · simp only [create_inode, hlu]
    rw [if_neg (fun hc => hc htype4)]

/-- Witness for C4: creating the one-byte name `[97]` in the empty root
directory of the concrete filesystem, twice. -/
theorem claim_C4_witness :
    ((fsEx.inodes 0).type_ = InodeType.Directory ∧
      (fsEx.inodes 0).size % DIR_ENTRY_SIZE = 0 ∧
      (fsEx.inodes 0).indirect = 0 ∧
      LayoutWF fsEx.sb ∧
      (∀ idx, idx < ceilB (fsEx.inodes 0).size →
        dataRange fsEx.sb (getBid (fsEx.inodes 0) fsEx.disk idx)) ∧
      (∀ idx, idx < ceilB (fsEx.inodes 0).size →
        dataBitSet fsEx (getBid (fsEx.inodes 0) fsEx.disk idx) = true) ∧
      (∀ r, r < ceilB (fsEx.inodes 0).size → ∀ q, q < r →
        getBid (fsEx.inodes 0) fsEx.disk q ≠ getBid (fsEx.inodes 0) fsEx.disk r) ∧
      look_up fsEx (fsEx.inodes 0) [97] = none ∧
      (∀ b ∈ [97], b ≠ (0 : Nat)) ∧
      inodeBitSet fsEx 0 = true ∧
      (create_inode fsEx 0 [97] InodeType.File).isOkC = true) ∧
    create_inode ((create_inode fsEx 0 [97] InodeType.File).stateOf) 0 [97] InodeType.File
      = CreateRes.err ((create_inode fsEx 0 [97] InodeType.File).stateOf)
          (AllocErr.AlreadyExist [97] InodeType.File) :=
  ⟨⟨by decide, by decide, by decide, by decide, by decide, by decide, by decide, by decide,
      by decide, by decide, by decide⟩,
    claim_C4 fsEx 0 [97] InodeType.File (by decide) (by decide) (by decide) (by decide)
      (by decide) (by decide) (by decide) (by decide) (by decide) (by decide) (by decide)⟩

/-! ## Claim C10 -/

/-- C10: a name longer than the fixed 24-byte directory-name array makes
`DirEntry::new` panic (the `copy_from_slice` range is out of bounds) for
every inode number, and `create_inode` with such a name — since `look_up`
can never find it, no stored entry being that long — panics at exactly
that point: after the new inode has been allocated (a fresh in-range
number, its record re-initialized to the requested type) and after the
directory has been grown by one entry size. -/
theorem claim_C10 (fs : FS) (dirI : Nat) (n : List Nat) (t : InodeType)
    (h1 : (fs.inodes dirI).type_ = InodeType.Directory)
    (h3 : (fs.inodes dirI).indirect = 0)
    (hwf : LayoutWF fs.sb)
    (hlen : DIR_NAME_SIZE < n.length)
    (h10 : inodeBitSet fs dirI = true)
    (hallocs : (allocate_inode fs t).1.isSome = true)
    (hressok : (resize_inode (allocate_inode fs t).2 dirI
        (((allocate_inode fs t).2.inodes dirI).size + DIR_ENTRY_SIZE)).isOkR = true) :
    (∀ inum, dirEntNew n inum = none) ∧
    ∃ st, create_inode fs dirI n t = CreateRes.panicked st ∧
      (st.inodes dirI).size = (fs.inodes dirI).size + DIR_ENTRY_SIZE ∧
      ∃ ninum, ninum < maxInodeNum fs.sb ∧ inodeBitSet fs ninum = false ∧
        st.inodes ninum = dinodeInit t := by
  have htype : ¬ (fs.inodes dirI).type_ ≠ InodeType.Directory := fun hc => hc h1
  have hdefail : ∀ inum, dirEntNew n inum = none := by
    intro inum
    unfold dirEntNew
    rw [if_neg (by omega)]
  have hlunone : look_up fs (fs.inodes dirI) n = none :=
    look_up_long_none fs (fs.inodes dirI) n hlen
  refine ⟨hdefail, ?_⟩
  rcases halloc : allocate_inode fs t with ⟨o, fs1⟩
  rcases o with _ | ninum
  · rw [halloc] at hallocs
    simp [Option.isSome] at hallocs
  obtain ⟨a1, a2, a3, a4, a5, a6⟩ := allocate_inode_some fs t ninum fs1 halloc
  have hne : ninum ≠ dirI := by
    intro h
    rw [h, h10] at a3
    exact Bool.noConfusion a3
  have hd1 : fs1.inodes dirI = fs.inodes dirI := a4 dirI (Ne.symm hne)
  rw [halloc] at hressok
  rcases hres : resize_inode fs1 dirI ((fs1.inodes dirI).size + DIR_ENTRY_SIZE)
      with fs2 | ⟨fs2, ee⟩ | fs2
  rotate_left
  · rw [hres] at hressok
    simp [ResizeRes.isOkR] at hressok
  · rw [hres] at hressok
    simp [ResizeRes.isOkR] at hressok
  have hwf1 : LayoutWF fs1.sb := by
    rw [a1]
    exact hwf
  have hind1 : (fs1.inodes dirI).indirect = 0 := by rw [hd1]; exact h3
  obtain ⟨r1, r2, r3, r4, r5, r6, r7, r8, r9, r10, r11⟩ :=
    resize_inode_ok fs1 dirI ((fs1.inodes dirI).size + DIR_ENTRY_SIZE) fs2 hwf1 hind1 hres
  have hcr : create_inode fs dirI n t = CreateRes.panicked fs2 := by
    simp only [create_inode, hlunone, halloc, hres, hdefail]
    rw [if_neg htype, if_neg (fun hc => hc r6)]
  refine ⟨fs2, hcr, ?_, ninum, a2, a3, ?_⟩
  · rw [r6, hd1]
  · rw [r2 ninum hne, a5]

/-- Witness for C10: creating a 25-byte name in the empty root directory
of the concrete filesystem. -/
theorem claim_C10_witness :
    ((fsEx.inodes 0).type_ = InodeType.Directory ∧
      (fsEx.inodes 0).indirect = 0 ∧
      LayoutWF fsEx.sb ∧
      DIR_NAME_SIZE < nameC10.length ∧
      inodeBitSet fsEx 0 = true ∧
      (allocate_inode fsEx InodeType.File).1.isSome = true ∧
      (resize_inode (allocate_inode fsEx InodeType.File).2 0
        (((allocate_inode fsEx InodeType.File).2.inodes 0).size + DIR_ENTRY_SIZE)).isOkR
          = true) ∧
    ((∀ inum, dirEntNew nameC10 inum = none) ∧
      ∃ st, create_inode fsEx 0 nameC10 InodeType.File = CreateRes.panicked st ∧
        (st.inodes 0).size = (fsEx.inodes 0).size + DIR_ENTRY_SIZE ∧
        ∃ ninum, ninum < maxInodeNum fsEx.sb ∧ inodeBitSet fsEx ninum = false ∧
          st.inodes ninum = dinodeInit InodeType.File) :=
  ⟨⟨by decide, by decide, by decide, by decide, by decide, by decide, by decide⟩,
    claim_C10 fsEx 0 nameC10 InodeType.File (by decide) (by decide) (by decide) (by decide)
      (by decide) (by decide) (by decide)⟩

/-! ## Claim C5 -/

/-- C6 amended to the code: under the source's assert
(`rest_blocks > inode_area` after subtracting the 1 super and 1 logging
block), the data-bitmap block count written by `FileSystem::create` is
`floor(data-area / (8 * BLOCK_SIZE)) + 1` and the data-block count is
`data-area` minus that, where `data-area = T - (super + log) -
(inode-bitmap blocks + inode blocks)`.  The claim's version — a boot
block in the subtraction and divisor `1 + 8 * BLOCK_SIZE` — does not
match the code (see the counterexample theorem). -/
theorem claim_C6_amended (T I : Nat)
    (h : (I / BLOCK_SIZE + 1) + I < T - (1 + 1)) :
    layoutDataBmapBlocks (mkLayout T I)
        = (T - (1 + 1) - ((I / BLOCK_SIZE + 1) + I)) / (8 * BLOCK_SIZE) + 1 ∧
    (mkLayout T I).data_blocks
        = (T - (1 + 1) - ((I / BLOCK_SIZE + 1) + I))
            - layoutDataBmapBlocks (mkLayout T I) := by
  simp only [layoutDataBmapBlocks, mkLayout, SUPER_BLOCK_LOC, BLOCK_SIZE] at h ⊢
  constructor
  · omega
  · omega

/-- Witness for C6 at the concrete layout of 64 total blocks and one
inode block. -/
theorem claim_C6_amended_witness :
    ((1 / BLOCK_SIZE + 1) + 1 < 64 - (1 + 1)) ∧
    (layoutDataBmapBlocks (mkLayout 64 1)
        = (64 - (1 + 1) - ((1 / BLOCK_SIZE + 1) + 1)) / (8 * BLOCK_SIZE) + 1 ∧
      (mkLayout 64 1).data_blocks
        = (64 - (1 + 1) - ((1 / BLOCK_SIZE + 1) + 1))
            - layoutDataBmapBlocks (mkLayout 64 1)) :=
  ⟨by decide, claim_C6_amended 64 1 (by decide)⟩

/-- The claim's formulas diverge from the code: at `T = 100, I = 1` the
code leaves 95 data blocks but the claim computes 94 (its data area
subtracts a boot block the code never accounts for), and at
`T = 32772, I = 1` the code writes 2 data-bitmap blocks but the claim's
divisor `1 + 8·block-size` computes 1. -/
theorem claim_C6_counterexample :
    (mkLayout 100 1).data_blocks = 95 ∧
    claimDataBlocks 100 1 = 94 ∧
    layoutDataBmapBlocks (mkLayout 32772 1) = 2 ∧
    claimDataBmapBlocks 32772 1 = 1 ∧
    claimDataArea 100 1 = 95 ∧
    100 - (1 + 1) - ((1 / BLOCK_SIZE + 1) + 1) = 96 := by
  decide

/-! ## Claim C7 -/

/-- Leading slashes do not change the component list. -/
theorem components_dropWhile_slash : ∀ p : List Nat,
    components (p.dropWhile (fun c => c = SLASH)) = components p := by
  intro p
  induction p with
  | nil => rfl
  | cons c t ih =>
    by_cases hc : c = SLASH
    · have hdw : (c :: t).dropWhile (fun c => decide (c = SLASH))
          = t.dropWhile (fun c => decide (c = SLASH)) := by
        simp [List.dropWhile_cons, hc]
      rw [hdw, ih]
      conv_rhs => rw [components]
      rw [if_pos hc]
    · have hdw : (c :: t).dropWhile (fun c => decide (c = SLASH)) = c :: t := by
        simp [List.dropWhile_cons, hc]
      rw [hdw]

/-- A path has no components exactly when it is all slashes. -/
theorem components_nil_iff : ∀ p : List Nat,
    (components p = [] ↔ p.dropWhile (fun c => c = SLASH) = []) := by
  intro p
  induction p with
  | nil => simp [components]
  | cons c t ih =>
    by_cases hc : c = SLASH
    · rw [components, if_pos hc, ih]
      simp [List.dropWhile_cons, hc]
    · rw [components, if_neg hc]
      simp [List.dropWhile_cons, hc]


/-- On an ASCII path suffix the slash loop finds no continuation byte
and behaves as `dropWhile`. -/
theorem skipSlashLoop_ascii : ∀ l : List Nat, (∀ b ∈ l, b < 128) →
    skipSlashLoop l = some (l.dropWhile (fun c => c = SLASH)) := by
  intro l
  induction l with
  | nil =>
    intro _
    rfl
  | cons b rest ih =>
    intro h
    have hb : nextIsCharBoundary rest = true := by
      cases rest with
      | nil => rfl
      | cons c t =>
        have hc : c < 128 := h c (by simp)
        simp [nextIsCharBoundary]
        omega
    simp only [skipSlashLoop]
    rw [if_neg (by simp [hb])]
    by_cases hbs : b = SLASH
    · rw [if_pos hbs, ih (fun x hx => h x (by simp [hx]))]
      rw [show (b :: rest).dropWhile (fun c => decide (c = SLASH))
          = rest.dropWhile (fun c => decide (c = SLASH)) from by
        simp [List.dropWhile_cons, hbs]]
    · rw [if_neg hbs]
      rw [show (b :: rest).dropWhile (fun c => decide (c = SLASH)) = b :: rest from by
        simp [List.dropWhile_cons, hbs]]

/-- On an ASCII path suffix the element loop finds no continuation byte
and behaves as the `takeWhile`/`dropWhile` split. -/
theorem skipNameLoop_ascii : ∀ l : List Nat, (∀ b ∈ l, b < 128) →
    skipNameLoop l
      = some (l.takeWhile (fun c => c ≠ SLASH), l.dropWhile (fun c => c ≠ SLASH)) := by
  intro l
  induction l with
  | nil =>
    intro _
    rfl
  | cons b rest ih =>
    intro h
    have hb : nextIsCharBoundary rest = true := by
      cases rest with
      | nil => rfl
      | cons c t =>
        have hc : c < 128 := h c (by simp)
        simp [nextIsCharBoundary]
        omega
    simp only [skipNameLoop]
    rw [if_neg (by simp [hb])]
    by_cases hbs : b = SLASH
    · rw [if_pos hbs]
      rw [show (b :: rest).takeWhile (fun c => decide (c ≠ SLASH)) = [] from by
        simp [List.takeWhile_cons, hbs]]
      rw [show (b :: rest).dropWhile (fun c => decide (c ≠ SLASH)) = b :: rest from by
        simp [List.dropWhile_cons, hbs]]
    · rw [if_neg hbs, ih (fun x hx => h x (by simp [hx]))]
      rw [show (b :: rest).takeWhile (fun c => decide (c ≠ SLASH))
          = b :: rest.takeWhile (fun c => decide (c ≠ SLASH)) from by
        simp [List.takeWhile_cons, hbs]]
      rw [show (b :: rest).dropWhile (fun c => decide (c ≠ SLASH))
          = rest.dropWhile (fun c => decide (c ≠ SLASH)) from by
        simp [List.dropWhile_cons, hbs]]

/-- On an ASCII path `skip` never panics and computes the
`dropWhile`/`takeWhile` splits: `exhausted` exactly on all-slash paths,
otherwise the first slash-free run and the remainder with its leading
slashes dropped. -/
theorem skip_ascii (p : List Nat) (h : ∀ b ∈ p, b < 128) :
    skip p =
      (if p.dropWhile (fun c => c = SLASH) = [] then SkipRes.exhausted
       else
         SkipRes.found ((p.dropWhile (fun c => c = SLASH)).takeWhile (fun c => c ≠ SLASH))
           (((p.dropWhile (fun c => c = SLASH)).dropWhile (fun c => c ≠ SLASH)).dropWhile
             (fun c => c = SLASH))) := by
  have hq : ∀ b ∈ p.dropWhile (fun c => decide (c = SLASH)), b < 128 :=
    fun b hb => h b ((List.dropWhile_sublist _).subset hb)
  unfold skip
  rw [skipSlashLoop_ascii p h]
  rcases hdw : p.dropWhile (fun c => decide (c = SLASH)) with _ | ⟨c, t⟩
  · rfl
  · have hqct : ∀ b ∈ c :: t, b < 128 := hdw ▸ hq
    show (match skipNameLoop (c :: t) with
        | Option.none => SkipRes.panicked
        | some (nm, suf) =>
          match skipSlashLoop suf with
          | Option.none => SkipRes.panicked
          | some rest => SkipRes.found nm rest) = _
    rw [skipNameLoop_ascii (c :: t) hqct]
    show (match skipSlashLoop ((c :: t).dropWhile (fun c => decide (c ≠ SLASH))) with
        | Option.none => SkipRes.panicked
        | some rest =>
          SkipRes.found ((c :: t).takeWhile (fun c => decide (c ≠ SLASH))) rest) = _
    rw [skipSlashLoop_ascii _ (fun b hb => hqct b ((List.dropWhile_sublist _).subset hb))]
    rw [if_neg (List.cons_ne_nil c t)]

/-- On an ASCII path `skip` is exhausted exactly when the path is all
slashes. -/
theorem skip_exhausted_iff (p : List Nat) (hascii : ∀ b ∈ p, b < 128) :
    skip p = SkipRes.exhausted ↔ p.dropWhile (fun c => c = SLASH) = [] := by
  rw [skip_ascii p hascii]
  by_cases hq : p.dropWhile (fun c => decide (c = SLASH)) = []
  · simp [hq]
  · simp [hq]

/-- On an ASCII path a successful `skip` takes off exactly the first
component: the component list of the path is the returned element
followed by the components of the remainder, the remainder carries no
leading slashes, it is strictly shorter, and it is still ASCII. -/
theorem skip_found_spec (p nm rest : List Nat) (hascii : ∀ b ∈ p, b < 128)
    (h : skip p = SkipRes.found nm rest) :
    components p = nm :: components rest ∧
    rest.dropWhile (fun c => c = SLASH) = rest ∧
    rest.length < p.length ∧
    (∀ b ∈ rest, b < 128) := by
  rw [skip_ascii p hascii] at h
  by_cases hq : p.dropWhile (fun c => decide (c = SLASH)) = []
  · rw [if_pos hq] at h
    exact SkipRes.noConfusion h
  · rw [if_neg hq] at h
    obtain ⟨hnm, hrest⟩ : (p.dropWhile (fun c => decide (c = SLASH))).takeWhile
          (fun c => decide (c ≠ SLASH)) = nm ∧
        (((p.dropWhile (fun c => decide (c = SLASH))).dropWhile
          (fun c => decide (c ≠ SLASH))).dropWhile (fun c => decide (c = SLASH))) = rest := by
      injection h with h1 h2
      exact ⟨h1, h2⟩
    have hrascii : ∀ b ∈ rest, b < 128 := by
      intro b hb
      refine hascii b ?_
      rw [← hrest] at hb
      exact (List.dropWhile_sublist _).subset ((List.dropWhile_sublist _).subset
        ((List.dropWhile_sublist _).subset hb))
    rcases hq2 : p.dropWhile (fun c => decide (c = SLASH)) with _ | ⟨c, t⟩
    · exact absurd hq2 hq
    · have hc : (decide (c = SLASH)) = false := by
        have := List.head?_dropWhile_not (fun c => decide (c = SLASH)) p
        rw [hq2] at this
        simpa using this
      have hcne : c ≠ SLASH := by simpa using hc
      refine ⟨?_, ?_, ?_, hrascii⟩
      · rw [← components_dropWhile_slash p, hq2]
        rw [components, if_neg hcne]
        rw [← hnm, hq2]
        have htw : (c :: t).takeWhile (fun c => decide (c ≠ SLASH))
            = c :: t.takeWhile (fun c => decide (c ≠ SLASH)) := by
          simp [List.takeWhile_cons, hcne]
        rw [htw]
        have hdw : (c :: t).dropWhile (fun c => decide (c ≠ SLASH))
            = t.dropWhile (fun c => decide (c ≠ SLASH)) := by
          simp [List.dropWhile_cons, hcne]
        rw [← hrest, hq2, hdw, components_dropWhile_slash]
      · rw [← hrest]
        exact dropWhile_idem _ _
      · have h1 : rest.length ≤ ((c :: t).dropWhile (fun c => decide (c ≠ SLASH))).length := by
          rw [← hrest, hq2]
          exact (List.dropWhile_sublist _).length_le
        have h2 : ((c :: t).dropWhile (fun c => decide (c ≠ SLASH))).length ≤ t.length := by
          have hdw : (c :: t).dropWhile (fun c => decide (c ≠ SLASH))
              = t.dropWhile (fun c => decide (c ≠ SLASH)) := by
            simp [List.dropWhile_cons, hcne]
          rw [hdw]
          exact (List.dropWhile_sublist _).length_le
        have h3 : (c :: t).length ≤ p.length := by
          rw [← hq2]
          exact (List.dropWhile_sublist _).length_le
        simp only [List.length_cons] at h3
        omega

/-- With enough fuel, on an ASCII path the path-resolution loop computes
exactly the spec's component-wise resolution — except that a non-empty
all-slash path yields `notFound` rather than the start inode. -/
theorem getInodeFromPathF_resolve (fs : FS) : ∀ (fuel : Nat) (path : List Nat) (startAt : Nat),
    (∀ b ∈ path, b < 128) →
    path.length < fuel →
    getInodeFromPathF fs fuel path startAt =
      (if path = [] then PathRes.ok startAt
       else if components path = [] then PathRes.notFound
       else
         match resolveComponents fs (components path) startAt with
         | some i => PathRes.ok i
         | none => PathRes.notFound) := by
  intro fuel
  induction fuel with
  | zero =>
    intro path s _ h
    exact absurd h (by omega)
  | succ fuel ih =>
    intro path s hascii hf
    by_cases hp : path = []
    · subst hp
      simp [getInodeFromPathF]
    · rw [if_neg hp]
      rcases hsk : skip path with _ | ⟨nm, rest⟩ | _
      · have hq : path.dropWhile (fun c => c = SLASH) = [] :=
          (skip_exhausted_iff path hascii).mp hsk
        have hcomp : components path = [] := (components_nil_iff path).mpr hq
        rw [if_pos hcomp]
        simp only [getInodeFromPathF]
        rw [if_neg hp, hsk]
      · obtain ⟨hcomp, hidem, hlen, hrascii⟩ := skip_found_spec path nm rest hascii hsk
        rw [hcomp, if_neg (List.cons_ne_nil _ _)]
        simp only [getInodeFromPathF]
        rw [if_neg hp, hsk]
        simp only [resolveComponents]
        by_cases ht : (fs.inodes s).type_ ≠ InodeType.Directory
        · rw [if_pos ht, if_pos ht]
        · rw [if_neg ht, if_neg ht]
          rcases hlu : look_up fs (fs.inodes s) nm with _ | nxt
          · rfl
          · show getInodeFromPathF fs fuel rest nxt
              = (match resolveComponents fs (components rest) nxt with
                | some i => PathRes.ok i
                | none => PathRes.notFound)
            rw [ih rest nxt hrascii (by omega)]
            by_cases hrnil : rest = []
            · subst hrnil
              simp [components, resolveComponents]
            · rw [if_neg hrnil]
              have hcr : components rest ≠ [] := by
                intro hcnil
                have hx := (components_nil_iff rest).mp hcnil
                rw [hidem] at hx
                exact hrnil hx
              rw [if_neg hcr]
      · exfalso
        rw [skip_ascii path hascii] at hsk
        by_cases hq : path.dropWhile (fun c => decide (c = SLASH)) = []
        · rw [if_pos hq] at hsk
          exact SkipRes.noConfusion hsk
        · rw [if_neg hq] at hsk
          exact SkipRes.noConfusion hsk

/-- C7 amended to the code: on ASCII paths (no multi-byte UTF-8
characters, so the source's `&path[p..p+1]` slices cannot panic)
`get_inode_from_path` resolves the path's non-empty slash-delimited
components exactly as the claim says (`///a/bb` resolves like `a/bb`;
each step requires a directory and a successful look-up; an empty path
returns the start inode), but a NON-EMPTY path with no non-empty
components (all slashes, e.g. `"///"`) returns `None`, not the start
inode as the claim requires.  Outside the ASCII restriction the claim
fails differently: a path containing a multi-byte UTF-8 character makes
the char-boundary check of the byte-wise `&path[p..p+1]` slicing panic
(see the counterexample theorem), where the claim requires ordinary
component resolution returning `None` on any failure. -/
theorem claim_C7_amended (fs : FS) (path : List Nat) (startAt : Nat)
    (hascii : ∀ b ∈ path, b < 128) :
    get_inode_from_path fs path startAt =
      (if path = [] then PathRes.ok startAt
       else if components path = [] then PathRes.notFound
       else
         match resolveComponents fs (components path) startAt with
         | some i => PathRes.ok i
         | none => PathRes.notFound) :=
  getInodeFromPathF_resolve fs (path.length + 1) path startAt hascii (by omega)

/-- Witness for C7 at the concrete ASCII path `"/a"`. -/
theorem claim_C7_amended_witness :
    (∀ b ∈ [SLASH, 97], b < 128) ∧
    get_inode_from_path fsEx [SLASH, 97] 0 =
      (if ([SLASH, 97] : List Nat) = [] then PathRes.ok 0
       else if components [SLASH, 97] = [] then PathRes.notFound
       else
         match resolveComponents fsEx (components [SLASH, 97]) 0 with
         | some i => PathRes.ok i
         | none => PathRes.notFound) :=
  ⟨by decide, claim_C7_amended fsEx [SLASH, 97] 0 (by decide)⟩

/-- The divergence inputs for C7.  The all-slash path `"///"` resolves
to `notFound`, although it has no non-empty components and the claim
therefore requires the start inode (as the spec's component-wise
resolution indeed computes).  The path `"é"` (bytes `[195, 169]`)
panics on the first `&path[p..p+1]` slice (byte 1 is a UTF-8
continuation byte, so 1 is not a char boundary), although the claim
requires ordinary resolution — here a failed look-up of the component
`"é"` returning `None`. -/
theorem claim_C7_counterexample :
    get_inode_from_path fsEx [SLASH, SLASH, SLASH] 0 = PathRes.notFound ∧
    components [SLASH, SLASH, SLASH] = [] ∧
    resolveComponents fsEx [] 0 = some 0 ∧
    get_inode_from_path fsEx [] 0 = PathRes.ok 0 ∧
    get_inode_from_path fsEx [195, 169] 0 = PathRes.panicked ∧
    components [195, 169] = [[195, 169]] ∧
    resolveComponents fsEx [[195, 169]] 0 = none := by
  refine ⟨by decide, ?_, rfl, by decide, by decide, ?_, by decide⟩
  · simp [components, SLASH]
  · simp [components, SLASH]
